import Mathlib

/-
Verification development for the Gmail watcher (src/src/watchers/gmail_watcher.py).
Strings are modelled as `List Char`; each Python helper is embedded as an
executable Lean function carrying the same name (module-private underscore
dropped).  Regex substitutions (`re.sub`) are embedded as left-to-right
scanners: at every position the pattern is tried; on a match the matched
characters are consumed and the replacement emitted, otherwise the character
is kept and scanning moves one position right — exactly `re.sub`'s semantics
for the self-contained patterns used by this code.
-/

namespace GW

/-- Code points treated as whitespace by Python (`str.strip`, `str.isspace`,
and `\s` in `re` for text patterns).  The full set for code points below
0x300 plus the standard higher Unicode space characters. -/
def pyWsCodes : List Nat :=
  [9, 10, 11, 12, 13, 28, 29, 30, 31, 32, 133, 160,
   0x1680, 0x2000, 0x2001, 0x2002, 0x2003, 0x2004, 0x2005, 0x2006, 0x2007,
   0x2008, 0x2009, 0x200A, 0x2028, 0x2029, 0x202F, 0x205F, 0x3000]

def isPyWs (c : Char) : Bool := c.toNat ∈ pyWsCodes

/-- Python `str.strip()` (both ends, default whitespace set). -/
def pyStrip (s : List Char) : List Char :=
  ((s.dropWhile (fun c => isPyWs c)).reverse.dropWhile (fun c => isPyWs c)).reverse

/-- Python `str.isspace()`: non-empty and all characters whitespace. -/
def pyIsSpace (s : List Char) : Bool := !s.isEmpty && s.all (fun c => isPyWs c)

/-- ASCII lower-casing, modelling Python `str.lower` on the ASCII range. -/
def lowerAscii (c : Char) : Char :=
  if 'A' ≤ c && c ≤ 'Z' then Char.ofNat (c.toNat + 32) else c

def lowerL (s : List Char) : List Char := s.map lowerAscii

/-- Does `s` begin with `pat`? -/
def startsWithL : List Char → List Char → Bool
  | [], _ => true
  | _ :: _, [] => false
  | p :: ps, c :: cs => p = c && startsWithL ps cs

/-- Case-insensitive (ASCII) version of `startsWithL`. -/
def ciStartsWith (pat s : List Char) : Bool := startsWithL (lowerL pat) (lowerL s)

/-- Python `pat in s` substring test. -/
def occursIn (pat : List Char) : List Char → Bool
  | [] => startsWithL pat []
  | c :: cs => startsWithL pat (c :: cs) || occursIn pat cs

theorem length_dropWhile_le (p : Char → Bool) (l : List Char) :
    (l.dropWhile p).length ≤ l.length := by
  induction l with
  | nil => simp [List.dropWhile]
  | cons c cs ih =>
    simp only [List.dropWhile]
    split
    · exact Nat.le_succ_of_le ih
    · exact Nat.le_refl _

theorem length_of_startsWith (pat s : List Char) (h : startsWithL pat s = true) :
    pat.length ≤ s.length := by
  induction pat generalizing s with
  | nil => simp
  | cons p ps ih =>
    cases s with
    | nil => simp [startsWithL] at h
    | cons c cs =>
      simp only [startsWithL, Bool.and_eq_true] at h
      simpa [List.length_cons] using Nat.succ_le_succ (ih cs h.2)

/-- Python `str.replace(pat, repl)`: left-to-right, non-overlapping, the
replacement is not rescanned. -/
def replaceSub (pat repl : List Char) : List Char → List Char
  | [] => []
  | c :: cs =>
    if pat ≠ [] ∧ startsWithL pat (c :: cs) = true then
      repl ++ replaceSub pat repl ((c :: cs).drop pat.length)
    else
      c :: replaceSub pat repl cs
termination_by s => s.length
decreasing_by
  · rename_i h
    have hp : 1 ≤ pat.length := by
      cases hpat : pat with
      | nil => exact absurd hpat h.1
      | cons a as => simp
    have := List.length_drop pat.length (c :: cs)
    simp only [this, List.length_cons]
    omega
  · simp

/- ------------------------------------------------------------------
html.unescape model (Python stdlib), restricted to the HTML entities this
code manipulates (amp, lt, gt, quot, nbsp, apos) and numeric character
references.  The scanning structure mirrors CPython's html.unescape: at
each `&`, match `#[0-9]+;?`, `#[xX][0-9a-fA-F]+;?`, or up to 32 characters
outside the set tab/newline/formfeed/space/`<`/`&`/`#`/`;` followed by an
optional `;`; named groups resolve by exact lookup and then by the
longest-prefix fallback of `_replace_charref`.
------------------------------------------------------------------ -/

def isNameChar (c : Char) : Bool :=
  !(c = '\t' || c = '\n' || c = Char.ofNat 12 || c = ' ' ||
    c = '<' || c = '&' || c = '#' || c = ';')

def isDecDigit (c : Char) : Bool := '0' ≤ c && c ≤ '9'

def isHexDigit (c : Char) : Bool :=
  ('0' ≤ c && c ≤ '9') || ('a' ≤ c && c ≤ 'f') || ('A' ≤ c && c ≤ 'F')

def decVal (c : Char) : Nat := c.toNat - '0'.toNat

def hexVal (c : Char) : Nat :=
  if '0' ≤ c && c ≤ '9' then c.toNat - '0'.toNat
  else if 'a' ≤ c && c ≤ 'f' then c.toNat - 'a'.toNat + 10
  else c.toNat - 'A'.toNat + 10

def parseDec (ds : List Char) : Nat := ds.foldl (fun a c => a * 10 + decVal c) 0

def parseHex (ds : List Char) : Nat := ds.foldl (fun a c => a * 16 + hexVal c) 0

/-- Character for a numeric character reference: valid scalar values map to
the code point, everything else to U+FFFD (model of CPython's handling for
the reference values exercised here). -/
def charOfCp (n : Nat) : Char :=
  if n = 0 || n ≥ 0x110000 || (0xD800 ≤ n && n ≤ 0xDFFF) then Char.ofNat 0xFFFD
  else Char.ofNat n

def nbspC : Char := Char.ofNat 160

def aposC : Char := Char.ofNat 39

/-- Named-entity table (html5 dict entries relevant here; the variants
without a trailing semicolon are the legacy entities CPython also accepts). -/
def entityTable : List (List Char × List Char) :=
  [("amp;".data, "&".data), ("amp".data, "&".data),
   ("lt;".data, "<".data), ("lt".data, "<".data),
   ("gt;".data, ">".data), ("gt".data, ">".data),
   ("quot;".data, "\"".data), ("quot".data, "\"".data),
   ("nbsp;".data, [nbspC]), ("nbsp".data, [nbspC]),
   ("apos;".data, [aposC])]

def entLookup (g : List Char) : Option (List Char) :=
  (entityTable.find? (fun e => e.1 = g)).map (fun e => e.2)

/-- Longest-prefix fallback of `_replace_charref`: try `g.take k` for
`k = g.length - 1` down to `2`. -/
def prefFallback (g : List Char) : Nat → Option (List Char)
  | 0 => none
  | Nat.succ k =>
    if k + 1 < 2 then none
    else
      match entLookup (g.take (k + 1)) with
      | some r => some (r ++ g.drop (k + 1))
      | none => prefFallback g k

/-- Entity-group resolution of `_replace_charref`: exact table lookup, then
the longest-prefix fallback. -/
def resolveEnt (g : List Char) : Option (List Char) :=
  match entLookup g with
  | some r => some r
  | none => prefFallback g (g.length - 1)

/-- Numeric reference `[0-9]+;?` at the head of `rest`. -/
def numRefDec (rest : List Char) : Option (List Char × List Char) :=
  if (rest.takeWhile isDecDigit).isEmpty then none
  else
    match rest.drop (rest.takeWhile isDecDigit).length with
    | [] => some ([charOfCp (parseDec (rest.takeWhile isDecDigit))], [])
    | c :: r4 =>
      if c = ';' then some ([charOfCp (parseDec (rest.takeWhile isDecDigit))], r4)
      else some ([charOfCp (parseDec (rest.takeWhile isDecDigit))], c :: r4)

/-- Numeric reference `[0-9a-fA-F]+;?` (after `#x`/`#X`) at the head of `rest`. -/
def numRefHex (rest : List Char) : Option (List Char × List Char) :=
  if (rest.takeWhile isHexDigit).isEmpty then none
  else
    match rest.drop (rest.takeWhile isHexDigit).length with
    | [] => some ([charOfCp (parseHex (rest.takeWhile isHexDigit))], [])
    | c :: r4 =>
      if c = ';' then some ([charOfCp (parseHex (rest.takeWhile isHexDigit))], r4)
      else some ([charOfCp (parseHex (rest.takeWhile isHexDigit))], c :: r4)

/-- Named reference: up to 32 name characters plus an optional `;`. -/
def namedRef (cs : List Char) : Option (List Char × List Char) :=
  if ((cs.takeWhile isNameChar).take 32).isEmpty then none
  else
    match cs.drop ((cs.takeWhile isNameChar).take 32).length with
    | [] => (resolveEnt ((cs.takeWhile isNameChar).take 32)).map (fun t => (t, []))
    | c :: r1 =>
      if c = ';' then
        (resolveEnt ((cs.takeWhile isNameChar).take 32 ++ [';'])).map (fun t => (t, r1))
      else
        (resolveEnt ((cs.takeWhile isNameChar).take 32)).map (fun t => (t, c :: r1))

/-- One character-reference match directly after a `&`: returns the
replacement text and the unconsumed remainder, or `none` if the regex does
not match at this position. -/
def charref (cs : List Char) : Option (List Char × List Char) :=
  match cs with
  | [] => none
  | c :: rest =>
    if c = '#' then
      match rest with
      | [] => none
      | x :: r2 => if x = 'x' || x = 'X' then numRefHex r2 else numRefDec rest
    else namedRef (c :: rest)

theorem drop_length_le (l : List Char) (n : Nat) : (l.drop n).length ≤ l.length := by
  simp [List.length_drop]

theorem numRefDec_rest_le (cs r rest : List Char) (h : numRefDec cs = some (r, rest)) :
    rest.length ≤ cs.length := by
  unfold numRefDec at h
  split at h
  · exact absurd h (by simp)
  · have hd := drop_length_le cs (cs.takeWhile isDecDigit).length
    split at h
    · simp only [Option.some.injEq, Prod.mk.injEq] at h
      rw [← h.2]
      simp
    · rename_i c r4 heq
      rw [heq] at hd
      simp only [List.length_cons] at hd
      split at h <;> simp only [Option.some.injEq, Prod.mk.injEq] at h <;> rw [← h.2]
      · omega
      · simp only [List.length_cons]
        omega

theorem numRefHex_rest_le (cs r rest : List Char) (h : numRefHex cs = some (r, rest)) :
    rest.length ≤ cs.length := by
  unfold numRefHex at h
  split at h
  · exact absurd h (by simp)
  · have hd := drop_length_le cs (cs.takeWhile isHexDigit).length
    split at h
    · simp only [Option.some.injEq, Prod.mk.injEq] at h
      rw [← h.2]
      simp
    · rename_i c r4 heq
      rw [heq] at hd
      simp only [List.length_cons] at hd
      split at h <;> simp only [Option.some.injEq, Prod.mk.injEq] at h <;> rw [← h.2]
      · omega
      · simp only [List.length_cons]
        omega

theorem namedRef_rest_le (cs r rest : List Char) (h : namedRef cs = some (r, rest)) :
    rest.length ≤ cs.length := by
  unfold namedRef at h
  split at h
  · exact absurd h (by simp)
  · have hd := drop_length_le cs ((cs.takeWhile isNameChar).take 32).length
    split at h
    · simp only [Option.map_eq_some'] at h
      obtain ⟨t, _, ht⟩ := h
      cases ht
      simp
    · rename_i c r1 heq
      rw [heq] at hd
      simp only [List.length_cons] at hd
      split at h <;> simp only [Option.map_eq_some'] at h <;>
        (obtain ⟨t, _, ht⟩ := h; cases ht)
      · omega
      · simp only [List.length_cons]
        omega

theorem charref_rest_le (cs r rest : List Char) (h : charref cs = some (r, rest)) :
    rest.length ≤ cs.length := by
  unfold charref at h
  split at h
  · exact absurd h (by simp)
  · rename_i c rest0
    split at h
    · split at h
      · exact absurd h (by simp)
      · rename_i x r2
        split at h
        · have := numRefHex_rest_le r2 r rest h
          simp only [List.length_cons]
          omega
        · have := numRefDec_rest_le (x :: r2) r rest h
          simp only [List.length_cons] at this ⊢
          omega
    · have := namedRef_rest_le (c :: rest0) r rest h
      simpa using this

/-- Model of Python `html.unescape` (scan for `&`, replace each matching
character reference). -/
def unescapeL : List Char → List Char
  | [] => []
  | c :: cs =>
    if c = '&' then
      match h : charref cs with
      | some (r, rest) => r ++ unescapeL rest
      | none => '&' :: unescapeL cs
    else
      c :: unescapeL cs
termination_by s => s.length
decreasing_by
  · have := charref_rest_le cs r rest h
    simp only [List.length_cons]
    omega
  · simp
  · simp

theorem unescapeL_cons (c : Char) (cs : List Char) :
    unescapeL (c :: cs) =
      if c = '&' then
        match charref cs with
        | some (r, rest) => r ++ unescapeL rest
        | none => '&' :: unescapeL cs
      else c :: unescapeL cs := by
  rw [unescapeL]
  split
  · split <;> rename_i heq
    · rw [heq]
    · rw [heq]
  · rfl

/- ------------------------------------------------------------------
The regex substitutions of _clean_text and _html_to_plain_text.
------------------------------------------------------------------ -/

/-- Substitution `re.sub(r'\s+', ' ', text)`: each maximal whitespace run
becomes a single space. -/
def subWs : List Char → List Char
  | [] => []
  | c :: cs =>
    if isPyWs c then ' ' :: subWs (cs.dropWhile (fun x => isPyWs x))
    else c :: subWs cs
termination_by s => s.length
decreasing_by
  · exact Nat.lt_succ_of_le (length_dropWhile_le _ _)
  · simp

def isSpaceTab (c : Char) : Bool := c = ' ' || c = '\t'

/-- Match of `[ \t]*\n[ \t]*` at the head of `s`; returns the remainder. -/
def nlTryMatch (s : List Char) : Option (List Char) :=
  match s.dropWhile isSpaceTab with
  | [] => none
  | c :: r2 => if c = '\n' then some (r2.dropWhile isSpaceTab) else none

theorem nlTryMatch_lt (s r : List Char) (h : nlTryMatch s = some r) :
    r.length < s.length := by
  unfold nlTryMatch at h
  split at h
  · exact absurd h (by simp)
  · rename_i c r2 heq
    split at h
    · simp only [Option.some.injEq] at h
      have h1 : r2.length + 1 ≤ s.length := by
        have := length_dropWhile_le isSpaceTab s
        rw [heq] at this
        simpa using this
      have h2 : r.length ≤ r2.length := by
        rw [← h]
        exact length_dropWhile_le _ _
      omega
    · exact absurd h (by simp)

/-- Substitution `re.sub(r'[ \t]*\n[ \t]*', '\n', text)`. -/
def subNl : List Char → List Char
  | [] => []
  | c :: cs =>
    match h : nlTryMatch (c :: cs) with
    | some r => '\n' :: subNl r
    | none => c :: subNl cs
termination_by s => s.length
decreasing_by
  · exact nlTryMatch_lt _ _ h
  · simp

theorem subNl_cons (c : Char) (cs : List Char) :
    subNl (c :: cs) =
      match nlTryMatch (c :: cs) with
      | some r => '\n' :: subNl r
      | none => c :: subNl cs := by
  rw [subNl]
  split <;> rename_i heq
  · rw [heq]
  · rw [heq]

/-- The character class of the URL-stripping patterns,
`(?:[a-zA-Z]|[0-9]|[$-_@.&+]|[!*\\(\\),]|(?:%[0-9a-fA-F][0-9a-fA-F]))+`,
flattened: `[$-_@.&+]` is the code-point range 0x24–0x5F (which already
contains the digits, `%`, `@`, `.`, `&` and `+`), so the `%hh` alternative
can never be reached and each iteration consumes exactly one character. -/
def isUrlChar (c : Char) : Bool :=
  (97 ≤ c.toNat && c.toNat ≤ 122) || (65 ≤ c.toNat && c.toNat ≤ 90) ||
  (36 ≤ c.toNat && c.toNat ≤ 95) ||
  c.toNat = 33 || c.toNat = 42 || c.toNat = 92 ||
  c.toNat = 40 || c.toNat = 41 || c.toNat = 44

/-- Greedy `CLASS+` after a scheme: needs at least one URL character, then
consumes the maximal run. -/
def urlTail (s : List Char) : Option (List Char) :=
  if (s.takeWhile isUrlChar).isEmpty then none
  else some (s.dropWhile isUrlChar)

/-- Match of `http[s]?://CLASS+` at the head of `s`. -/
def tryHttp (s : List Char) : Option (List Char) :=
  if startsWithL "https://".data s then urlTail (s.drop 8)
  else if startsWithL "http://".data s then urlTail (s.drop 7)
  else none

/-- Match of `www\.CLASS+` at the head of `s`. -/
def tryWww (s : List Char) : Option (List Char) :=
  if startsWithL "www.".data s then urlTail (s.drop 4) else none

theorem urlTail_le (s r : List Char) (h : urlTail s = some r) : r.length ≤ s.length := by
  unfold urlTail at h
  split at h
  · exact absurd h (by simp)
  · simp only [Option.some.injEq] at h
    rw [← h]
    exact length_dropWhile_le _ _

theorem tryHttp_lt (s r : List Char) (h : tryHttp s = some r) : r.length < s.length := by
  unfold tryHttp at h
  split at h
  · rename_i hs
    have h8 : 8 ≤ s.length := by simpa using length_of_startsWith _ _ hs
    have := urlTail_le _ _ h
    have hd : (s.drop 8).length = s.length - 8 := List.length_drop 8 s
    omega
  · split at h
    · rename_i hs
      have h7 : 7 ≤ s.length := by simpa using length_of_startsWith _ _ hs
      have := urlTail_le _ _ h
      have hd : (s.drop 7).length = s.length - 7 := List.length_drop 7 s
      omega
    · exact absurd h (by simp)

theorem tryWww_lt (s r : List Char) (h : tryWww s = some r) : r.length < s.length := by
  unfold tryWww at h
  split at h
  · rename_i hs
    have h4 : 4 ≤ s.length := by simpa using length_of_startsWith _ _ hs
    have := urlTail_le _ _ h
    have hd : (s.drop 4).length = s.length - 4 := List.length_drop 4 s
    omega
  · exact absurd h (by simp)

/-- Substitution removing `http[s]?://...` URL tokens. -/
def subHttp : List Char → List Char
  | [] => []
  | c :: cs =>
    match h : tryHttp (c :: cs) with
    | some r => subHttp r
    | none => c :: subHttp cs
termination_by s => s.length
decreasing_by
  · exact tryHttp_lt _ _ h
  · simp

theorem subHttp_cons (c : Char) (cs : List Char) :
    subHttp (c :: cs) =
      match tryHttp (c :: cs) with
      | some r => subHttp r
      | none => c :: subHttp cs := by
  rw [subHttp]
  split <;> rename_i heq
  · rw [heq]
  · rw [heq]

/-- Substitution removing `www....` URL tokens. -/
def subWww : List Char → List Char
  | [] => []
  | c :: cs =>
    match h : tryWww (c :: cs) with
    | some r => subWww r
    | none => c :: subWww cs
termination_by s => s.length
decreasing_by
  · exact tryWww_lt _ _ h
  · simp

theorem subWww_cons (c : Char) (cs : List Char) :
    subWww (c :: cs) =
      match tryWww (c :: cs) with
      | some r => subWww r
      | none => c :: subWww cs := by
  rw [subWww]
  split <;> rename_i heq
  · rw [heq]
  · rw [heq]

/- ------------------------------------------------------------------
_clean_text and _ensure_plain_text.
------------------------------------------------------------------ -/

/-- Embedding of `GmailWatcher._clean_text`: unescape entities, strip the two
URL patterns, collapse whitespace runs to single spaces, strip, then the
final newline-normalisation pass. -/
def clean_text (text : List Char) : List Char :=
  if text.isEmpty then []
  else subNl (pyStrip (subWs (subWww (subHttp (unescapeL text)))))

/-- The explicit entity replacements of `_ensure_plain_text`, in the
dictionary's insertion order; each is a plain `str.replace`. -/
def entity_map : List (List Char × List Char) :=
  [("&nbsp;".data, " ".data), ("&amp;".data, "&".data),
   ("&lt;".data, "<".data), ("&gt;".data, ">".data),
   ("&quot;".data, "\"".data), ("&#39;".data, [aposC])]

def applyEntityMap (s : List Char) : List Char :=
  entity_map.foldl (fun acc e => replaceSub e.1 e.2 acc) s

/-- Embedding of `GmailWatcher._ensure_plain_text`: clean, apply the entity
map, and clean again. -/
def ensure_plain_text (text : List Char) : List Char :=
  if text.isEmpty then []
  else clean_text (applyEntityMap (clean_text text))

/- ------------------------------------------------------------------
_is_html_only.
------------------------------------------------------------------ -/

/-- The character class of `^[<>\s\/=\-"\'\[\]]*$`. -/
def isTagSoupChar (c : Char) : Bool :=
  c = '<' || c = '>' || isPyWs c || c = '/' || c = '=' || c = '-' ||
  c = '"' || c = aposC || c = '[' || c = ']'

/-- Python `str.split()` with no argument: split on whitespace runs,
dropping empty pieces. -/
def splitWsWords : List Char → List (List Char)
  | [] => []
  | c :: cs =>
    if isPyWs c then splitWsWords cs
    else (c :: cs.takeWhile (fun x => !isPyWs x)) ::
      splitWsWords (cs.dropWhile (fun x => !isPyWs x))
termination_by s => s.length
decreasing_by
  · simp
  · exact Nat.lt_succ_of_le (length_dropWhile_le _ _)

/-- Embedding of `GmailWatcher._is_html_only`.  The final regex test
`re.match(r'^[<>\s\/=\-"\'\[\]]*$', stripped)` is expressed as an all-chars
test, which agrees because `stripped` never ends in a newline. -/
def is_html_only (text : List Char) : Bool :=
  if text.isEmpty || pyIsSpace text then true
  else
    if (pyStrip (subWs text)).length < 5 then true
    else if (splitWsWords (pyStrip (subWs text))).length = 0 then true
    else if (pyStrip (subWs text)).all isTagSoupChar then true
    else false

/- ------------------------------------------------------------------
_html_to_plain_text.
------------------------------------------------------------------ -/

/-- Consume `[^>]*>` at the head of `s` (remainder after the `>`). -/
def afterGt (s : List Char) : Option (List Char) :=
  match s.dropWhile (fun c => !(c = '>')) with
  | [] => none
  | c :: r => if c = '>' then some r else none

theorem afterGt_lt (s r : List Char) (h : afterGt s = some r) : r.length < s.length := by
  unfold afterGt at h
  split at h
  · exact absurd h (by simp)
  · rename_i c r2 heq
    split at h
    · simp only [Option.some.injEq] at h
      subst h
      have := length_dropWhile_le (fun c => !(c = '>')) s
      rw [heq] at this
      simp only [List.length_cons] at this
      omega
    · exact absurd h (by simp)

/-- Scan for the first occurrence of the (case-insensitive) closing tag
`</tag>`; return the remainder after it (the lazy `.*?` of the pattern). -/
def findClose (tag : List Char) : List Char → Option (List Char)
  | [] => none
  | c :: cs =>
    if ciStartsWith ('<' :: '/' :: (tag ++ ['>'])) (c :: cs) then
      some ((c :: cs).drop (tag.length + 3))
    else
      findClose tag cs

theorem findClose_le (tag s r : List Char) (h : findClose tag s = some r) :
    r.length ≤ s.length := by
  induction s with
  | nil => exact absurd h (by simp [findClose])
  | cons c cs ih =>
    unfold findClose at h
    split at h
    · simp only [Option.some.injEq] at h
      rw [← h]
      exact drop_length_le _ _
    · exact Nat.le_succ_of_le (ih h)

/-- Match of `<(script|style)[^>]*>.*?</\1>` (DOTALL, IGNORECASE) for one
fixed tag name at the head of `s`. -/
def tryTagBlock (tag : List Char) (s : List Char) : Option (List Char) :=
  if ciStartsWith ('<' :: tag) s then
    match afterGt (s.drop (tag.length + 1)) with
    | some r2 => findClose tag r2
    | none => none
  else none

theorem tryTagBlock_lt (tag s r : List Char) (h : tryTagBlock tag s = some r) :
    r.length < s.length := by
  unfold tryTagBlock at h
  split at h
  · split at h <;> rename_i heq
    · rename_i r2
      have h1 := findClose_le tag r2 r h
      have h2 := afterGt_lt _ _ heq
      have h3 : (s.drop (tag.length + 1)).length ≤ s.length := drop_length_le _ _
      exact Nat.lt_of_le_of_lt h1 (Nat.lt_of_lt_of_le h2 h3)
    · exact absurd h (by simp)
  · exact absurd h (by simp)

/-- Match of the script/style pattern at the head of `s` (alternation order:
`script` first, then `style`). -/
def tryScriptStyle (s : List Char) : Option (List Char) :=
  match tryTagBlock "script".data s with
  | some r => some r
  | none => tryTagBlock "style".data s

theorem tryScriptStyle_lt (s r : List Char) (h : tryScriptStyle s = some r) :
    r.length < s.length := by
  unfold tryScriptStyle at h
  split at h <;> rename_i heq
  · simp only [Option.some.injEq] at h
    exact h ▸ tryTagBlock_lt _ _ _ heq
  · exact tryTagBlock_lt _ _ _ h

/-- Substitution `re.sub(r'<(script|style)[^>]*>.*?</\1>', ' ', ...)`. -/
def subScriptStyle : List Char → List Char
  | [] => []
  | c :: cs =>
    match h : tryScriptStyle (c :: cs) with
    | some r => ' ' :: subScriptStyle r
    | none => c :: subScriptStyle cs
termination_by s => s.length
decreasing_by
  · exact tryScriptStyle_lt _ _ h
  · simp

theorem subScriptStyle_cons (c : Char) (cs : List Char) :
    subScriptStyle (c :: cs) =
      match tryScriptStyle (c :: cs) with
      | some r => ' ' :: subScriptStyle r
      | none => c :: subScriptStyle cs := by
  rw [subScriptStyle]
  split <;> rename_i heq
  · rw [heq]
  · rw [heq]

/-- Scan for the first occurrence of `pat`; return the remainder after it. -/
def findSub (pat : List Char) : List Char → Option (List Char)
  | [] => none
  | c :: cs =>
    if startsWithL pat (c :: cs) then some ((c :: cs).drop pat.length)
    else findSub pat cs

theorem findSub_le (pat s r : List Char) (h : findSub pat s = some r) :
    r.length ≤ s.length := by
  induction s with
  | nil => exact absurd h (by simp [findSub])
  | cons c cs ih =>
    unfold findSub at h
    split at h
    · simp only [Option.some.injEq] at h
      rw [← h]
      exact drop_length_le _ _
    · exact Nat.le_succ_of_le (ih h)

/-- Match of `<!--.*?-->` (DOTALL) at the head of `s`. -/
def tryComment (s : List Char) : Option (List Char) :=
  if startsWithL "<!--".data s then findSub "-->".data (s.drop 4) else none

theorem tryComment_lt (s r : List Char) (h : tryComment s = some r) :
    r.length < s.length := by
  unfold tryComment at h
  split at h
  · rename_i hs
    have h4 : 4 ≤ s.length := by simpa using length_of_startsWith _ _ hs
    have h1 := findSub_le _ _ _ h
    have h2 : (s.drop 4).length = s.length - 4 := List.length_drop 4 s
    omega
  · exact absurd h (by simp)

/-- Substitution `re.sub(r'<!--.*?-->', ' ', ...)`. -/
def subComments : List Char → List Char
  | [] => []
  | c :: cs =>
    match h : tryComment (c :: cs) with
    | some r => ' ' :: subComments r
    | none => c :: subComments cs
termination_by s => s.length
decreasing_by
  · exact tryComment_lt _ _ h
  · simp

theorem subComments_cons (c : Char) (cs : List Char) :
    subComments (c :: cs) =
      match tryComment (c :: cs) with
      | some r => ' ' :: subComments r
      | none => c :: subComments cs := by
  rw [subComments]
  split <;> rename_i heq
  · rw [heq]
  · rw [heq]

/-- Match of `<[^>]*>` at the head of `s`. -/
def tryTag (s : List Char) : Option (List Char) :=
  match s with
  | [] => none
  | c :: r => if c = '<' then afterGt r else none

theorem tryTag_lt (s r : List Char) (h : tryTag s = some r) : r.length < s.length := by
  unfold tryTag at h
  split at h
  · exact absurd h (by simp)
  · rename_i c r1
    split at h
    · have := afterGt_lt _ _ h
      simp only [List.length_cons]
      omega
    · exact absurd h (by simp)

/-- Substitution `re.sub(r'<[^>]*>', ' ', ...)`. -/
def subTags : List Char → List Char
  | [] => []
  | c :: cs =>
    match h : tryTag (c :: cs) with
    | some r => ' ' :: subTags r
    | none => c :: subTags cs
termination_by s => s.length
decreasing_by
  · exact tryTag_lt _ _ h
  · simp

theorem subTags_cons (c : Char) (cs : List Char) :
    subTags (c :: cs) =
      match tryTag (c :: cs) with
      | some r => ' ' :: subTags r
      | none => c :: subTags cs := by
  rw [subTags]
  split <;> rename_i heq
  · rw [heq]
  · rw [heq]

/-- Embedding of `GmailWatcher._html_to_plain_text`. -/
def html_to_plain_text (html : List Char) : List Char :=
  if html.isEmpty then []
  else pyStrip (subWs (subTags (subComments (subScriptStyle (unescapeL html)))))

/- ------------------------------------------------------------------
base64.urlsafe_b64decode and bytes.decode('utf-8') models.  Failure is
`none` (in Python: binascii.Error / UnicodeDecodeError).
------------------------------------------------------------------ -/

def b64Translate (c : Char) : Char :=
  if c = '-' then '+' else if c = '_' then '/' else c

def b64Index (c : Char) : Option Nat :=
  if 'A' ≤ c && c ≤ 'Z' then some (c.toNat - 'A'.toNat)
  else if 'a' ≤ c && c ≤ 'z' then some (c.toNat - 'a'.toNat + 26)
  else if '0' ≤ c && c ≤ '9' then some (c.toNat - '0'.toNat + 52)
  else if c = '+' then some 62
  else if c = '/' then some 63
  else none

def b64Keep (c : Char) : Bool := (b64Index c).isSome || c = '='

/-- Quad-wise base64 decoding (after discarding non-alphabet characters, as
CPython's non-strict decoder does); data after a padded final quad is
ignored, a quad that is incomplete or has `=` in a data position fails. -/
def decodeQuads : List Char → Option (List Nat)
  | [] => some []
  | a :: b :: c :: d :: rest =>
    match b64Index a, b64Index b with
    | some ia, some ib =>
      if c = '=' then
        if d = '=' then some [ia * 4 + ib / 16] else none
      else
        match b64Index c with
        | some ic =>
          if d = '=' then some [ia * 4 + ib / 16, (ib % 16) * 16 + ic / 4]
          else
            match b64Index d with
            | some idx =>
              (decodeQuads rest).map
                (fun t => (ia * 4 + ib / 16) :: ((ib % 16) * 16 + ic / 4) ::
                  ((ic % 4) * 64 + idx) :: t)
            | none => none
        | none => none
    | _, _ => none
  | _ => none

/-- Model of `base64.urlsafe_b64decode` on a string argument. -/
def b64urlDecode (s : List Char) : Option (List Nat) :=
  decodeQuads ((s.map b64Translate).filter b64Keep)

def isCont (b : Nat) : Bool := 0x80 ≤ b && b ≤ 0xBF

def cont3ok (b b2 : Nat) : Bool :=
  if b = 0xE0 then 0xA0 ≤ b2 && b2 ≤ 0xBF
  else if b = 0xED then 0x80 ≤ b2 && b2 ≤ 0x9F
  else isCont b2

def cont4ok (b b2 : Nat) : Bool :=
  if b = 0xF0 then 0x90 ≤ b2 && b2 ≤ 0xBF
  else if b = 0xF4 then 0x80 ≤ b2 && b2 ≤ 0x8F
  else isCont b2

/-- Strict UTF-8 decoding (overlongs, surrogates and stray bytes rejected),
modelling `bytes.decode('utf-8')`. -/
def utf8Decode : List Nat → Option (List Char)
  | [] => some []
  | b :: bs =>
    if b < 0x80 then (utf8Decode bs).map (fun t => Char.ofNat b :: t)
    else if 0xC2 ≤ b && b ≤ 0xDF then
      match bs with
      | b2 :: bs2 =>
        if isCont b2 then
          (utf8Decode bs2).map (fun t => Char.ofNat ((b - 0xC0) * 64 + (b2 - 0x80)) :: t)
        else none
      | [] => none
    else if 0xE0 ≤ b && b ≤ 0xEF then
      match bs with
      | b2 :: b3 :: bs3 =>
        if cont3ok b b2 && isCont b3 then
          (utf8Decode bs3).map
            (fun t => Char.ofNat (((b - 0xE0) * 64 + (b2 - 0x80)) * 64 + (b3 - 0x80)) :: t)
        else none
      | _ => none
    else if 0xF0 ≤ b && b ≤ 0xF4 then
      match bs with
      | b2 :: b3 :: b4 :: bs4 =>
        if cont4ok b b2 && isCont b3 && isCont b4 then
          (utf8Decode bs4).map
            (fun t => Char.ofNat ((((b - 0xF0) * 64 + (b2 - 0x80)) * 64 + (b3 - 0x80)) * 64
              + (b4 - 0x80)) :: t)
        else none
      | _ => none
    else none

/- ------------------------------------------------------------------
Message model: Gmail API message dictionaries as consumed by the watcher.
`Option` marks keys that may be absent; `part.get('mimeType', '')` means an
absent mimeType behaves as the empty string, so mimeType is a plain field.
`body`/`data` are collapsed into one optional field, since the code guards
both keys together.
------------------------------------------------------------------ -/

structure RawHeader where
  name : Option (List Char)
  value : Option (List Char)

structure EmailPart where
  mimeType : List Char
  body : Option (List Char)

structure EmailPayload where
  parts : Option (List EmailPart)
  headers : Option (List RawHeader)
  body : Option (List Char)

structure EmailMsg where
  payload : Option EmailPayload
  snippet : Option (List Char)

/-- `base64.urlsafe_b64decode(data)` followed by `.decode('utf-8')`; an
exception in either step is the error case. -/
def decodePartData (d : List Char) : Except Unit (List Char) :=
  match b64urlDecode d with
  | none => Except.error ()
  | some bytes =>
    match utf8Decode bytes with
    | none => Except.error ()
    | some t => Except.ok t

/-- The common post-processing of every extraction branch: clean the text,
return the empty string if it qualifies as HTML-only. -/
def cleanupResult (t : List Char) : List Char :=
  if is_html_only (ensure_plain_text t) then [] else ensure_plain_text t

def defaultSnippet : List Char := "No content available".data

def failSnippet : List Char := "Content extraction failed, no content available".data

/-- First loop of `_extract_full_email_body`: find the first usable
`text/plain` part (skipping `image/...` parts and parts with empty or
missing data); a decode failure raises. -/
def scanPlainParts : List EmailPart → Except Unit (Option (List Char))
  | [] => Except.ok none
  | p :: ps =>
    if startsWithL "image/".data p.mimeType then scanPlainParts ps
    else if p.mimeType = "text/plain".data then
      match p.body with
      | some d =>
        if d.isEmpty then scanPlainParts ps
        else
          match decodePartData d with
          | Except.error e => Except.error e
          | Except.ok t => Except.ok (some (cleanupResult t))
      | none => scanPlainParts ps
    else scanPlainParts ps

/-- Second loop: the first usable `text/html` part, converted to text. -/
def scanHtmlParts : List EmailPart → Except Unit (Option (List Char))
  | [] => Except.ok none
  | p :: ps =>
    if startsWithL "image/".data p.mimeType then scanHtmlParts ps
    else if p.mimeType = "text/html".data then
      match p.body with
      | some d =>
        if d.isEmpty then scanHtmlParts ps
        else
          match decodePartData d with
          | Except.error e => Except.error e
          | Except.ok t => Except.ok (some (cleanupResult (html_to_plain_text t)))
      | none => scanHtmlParts ps
    else scanHtmlParts ps

/-- The body of `_extract_full_email_body`'s `try` block; an uncaught
exception is the error case. -/
def extractInner (msg : EmailMsg) : Except Unit (List Char) :=
  match msg.payload with
  | none => Except.ok (cleanupResult (msg.snippet.getD defaultSnippet))
  | some pl =>
    match pl.parts with
    | some parts =>
      match scanPlainParts parts with
      | Except.error e => Except.error e
      | Except.ok (some r) => Except.ok r
      | Except.ok none =>
        match scanHtmlParts parts with
        | Except.error e => Except.error e
        | Except.ok (some r) => Except.ok r
        | Except.ok none => Except.ok (cleanupResult (msg.snippet.getD defaultSnippet))
    | none =>
      match pl.body with
      | some d =>
        match decodePartData d with
        | Except.error e => Except.error e
        | Except.ok t => Except.ok (cleanupResult t)
      | none => Except.ok (cleanupResult (msg.snippet.getD defaultSnippet))

/-- Embedding of `GmailWatcher._extract_full_email_body`: the `except`
branch falls back to the cleaned snippet with the failure default. -/
def extract_full_email_body (msg : EmailMsg) : List Char :=
  match extractInner msg with
  | Except.ok r => r
  | Except.error _ => cleanupResult (msg.snippet.getD failSnippet)

/- ------------------------------------------------------------------
_determine_priority.
------------------------------------------------------------------ -/

def high_priority_keywords : List (List Char) :=
  ["urgent".data, "asap".data, "important".data, "deadline".data, "invoice".data,
   "payment".data, "money".data, "billing".data, "due".data, "critical".data]

/-- Last-wins dictionary lookup over the header association list (Python
dict built by comprehension keeps the last value for duplicate keys). -/
def dictGet (d : List (List Char × List Char)) (k : List Char) : Option (List Char) :=
  ((d.filter (fun e => e.1 = k)).getLast?).map (fun e => e.2)

/-- The text `_determine_priority` scans:
`f"{subject} {sender} {snippet_lower}"` with each piece lower-cased. -/
def priorityText (headers : List (List Char × List Char)) (snippet : List Char) : List Char :=
  lowerL ((dictGet headers "Subject".data).getD []) ++ ' ' ::
    lowerL ((dictGet headers "From".data).getD []) ++ ' ' :: lowerL snippet

/-- Embedding of `GmailWatcher._determine_priority`. -/
def determine_priority (headers : List (List Char × List Char)) (snippet : List Char) :
    List Char :=
  if high_priority_keywords.any (fun kw => occursIn kw (priorityText headers snippet)) then
    "high".data
  else "normal".data

/- ------------------------------------------------------------------
create_action_file and the poll loop.
------------------------------------------------------------------ -/

/-- Python dict comprehension `{h['name']: h['value'] for h in headers}` —
a missing key raises `KeyError`. -/
def buildHeaders : List RawHeader → Except Unit (List (List Char × List Char))
  | [] => Except.ok []
  | h :: hs =>
    match h.name, h.value with
    | some n, some v => (buildHeaders hs).map (fun t => (n, v) :: t)
    | _, _ => Except.error ()

/-- Header extraction of `create_action_file`: the dict comprehension runs
only when both `payload` and `payload['headers']` exist, else `{}`. -/
def msgHeaders (msg : EmailMsg) : Except Unit (List (List Char × List Char)) :=
  match msg.payload with
  | some pl =>
    match pl.headers with
    | some hs => buildHeaders hs
    | none => Except.ok []
  | none => Except.ok []

/-- `value.replace(':', ';')`. -/
def colonToSemi (s : List Char) : List Char :=
  s.map (fun c => if c = ':' then ';' else c)

/-- `headers.get(key, dflt).replace(':', ';').strip()` — the frontmatter
field sanitisation of `create_action_file`. -/
def headerFieldValue (headers : List (List Char × List Char)) (key dflt : List Char) :
    List Char :=
  pyStrip (colonToSemi ((dictGet headers key).getD dflt))

/-- The note content f-string of `create_action_file`. -/
def renderNote (fromF subjF received prio body : List Char) : List Char :=
  "---\ntype: email\nfrom: ".data ++ fromF ++
  "\nsubject: ".data ++ subjF ++
  "\nreceived: ".data ++ received ++
  "\npriority: ".data ++ prio ++
  "\nstatus: pending\n---\n\n## Email Content\n".data ++ body ++
  "\n\n## Suggested Actions\n- [ ] Review content and determine appropriate response\n- [ ] Take necessary action based on email content\n- [ ] Archive or mark as read after processing\n".data

structure MsgData where
  id : List Char
  details : EmailMsg

/-- Watcher state: the Inbox files (name ↦ content) and the in-memory
processed-ids set. -/
structure WatcherState where
  files : List (List Char × List Char)
  processedIds : List (List Char)

/-- `filepath.write_text(content)`: create or overwrite. -/
def upsertFile (files : List (List Char × List Char)) (k v : List Char) :
    List (List Char × List Char) :=
  if files.any (fun e => e.1 = k) then
    files.map (fun e => if e.1 = k then (k, v) else e)
  else files ++ [(k, v)]

/-- `set.add`. -/
def addId (ids : List (List Char)) (i : List Char) : List (List Char) :=
  if i ∈ ids then ids else ids ++ [i]

/-- Embedding of `GmailWatcher.create_action_file` (the wall-clock
`datetime.now().isoformat()` is the `now` parameter).  Its internal
`except` logs and re-raises, so an exception propagates unchanged. -/
def create_action_file (st : WatcherState) (m : MsgData) (now : List Char) :
    Except Unit (WatcherState × List Char) :=
  match msgHeaders m.details with
  | Except.error e => Except.error e
  | Except.ok headers =>
    Except.ok
      (⟨upsertFile st.files ("EMAIL_".data ++ m.id ++ ".md".data)
          (renderNote (headerFieldValue headers "From".data "Unknown".data)
            (headerFieldValue headers "Subject".data "No Subject".data)
            now
            (determine_priority headers (extract_full_email_body m.details))
            (extract_full_email_body m.details)),
        addId st.processedIds m.id⟩,
       "EMAIL_".data ++ m.id ++ ".md".data)

/-- Embedding of `GmailWatcher.check_for_updates`: ids already in the
processed set are filtered out before the detail fetch (`getDetail`). -/
def check_for_updates (st : WatcherState) (fetched : List (List Char))
    (getDetail : List Char → EmailMsg) : List MsgData :=
  (fetched.filter (fun i => !(decide (i ∈ st.processedIds)))).map
    (fun i => ⟨i, getDetail i⟩)

/-- The per-cycle `for item in items: create_action_file(item)` of `run`:
the first exception escapes the loop (it is caught by `run`'s `except`, so
the remaining items of this cycle are skipped). -/
def processItems (now : List Char) : WatcherState → List MsgData → WatcherState
  | st, [] => st
  | st, m :: ms =>
    match create_action_file st m now with
    | Except.ok (st2, _) => processItems now st2 ms
    | Except.error _ => st

/-- One cycle of `GmailWatcher.run`: fetch, filter by the seen set,
process each remaining message. -/
def run_cycle (st : WatcherState) (fetched : List (List Char))
    (getDetail : List Char → EmailMsg) (now : List Char) : WatcherState :=
  processItems now st (check_for_updates st fetched getDetail)

/- ------------------------------------------------------------------
Seen-set store: _load_processed_ids / _save_processed_ids.
------------------------------------------------------------------ -/

/-- Python string `<` (lexicographic by code point), as used by `sorted`. -/
def lexLeStr : List Char → List Char → Bool
  | [], _ => true
  | _ :: _, [] => false
  | a :: as2, b :: bs2 => if a = b then lexLeStr as2 bs2 else decide (a.toNat < b.toNat)

def insertSorted (x : List Char) : List (List Char) → List (List Char)
  | [] => [x]
  | y :: ys => if lexLeStr x y then x :: y :: ys else y :: insertSorted x ys

/-- `sorted(...)` on a collection of strings. -/
def sortStrs : List (List Char) → List (List Char)
  | [] => []
  | x :: xs => insertSorted x (sortStrs xs)

/-- `'\n'.join(...)`. -/
def joinNl : List (List Char) → List Char
  | [] => []
  | [x] => x
  | x :: y :: xs => x ++ '\n' :: joinNl (y :: xs)

/-- Embedding of `_save_processed_ids`: the file content written. -/
def save_processed_ids (ids : List (List Char)) : List Char := joinNl (sortStrs ids)

/-- Line-boundary characters of Python `str.splitlines`. -/
def isLineBoundary (c : Char) : Bool :=
  c.toNat ∈ [10, 11, 12, 13, 28, 29, 30, 133, 0x2028, 0x2029]

def splitAux : List Char → List Char → List (List Char)
  | acc, [] => [acc.reverse]
  | acc, c :: cs =>
    if isLineBoundary c then
      acc.reverse ::
        (if c = Char.ofNat 13 ∧ cs.head? = some '\n' then
          (if cs.tail.isEmpty then [] else splitAux [] cs.tail)
         else
          (if cs.isEmpty then [] else splitAux [] cs))
    else splitAux (c :: acc) cs
termination_by acc s => s.length
decreasing_by
  · have : cs.tail.length ≤ cs.length := by
      cases cs <;> simp
    simp only [List.length_cons]
    omega
  · simp
  · simp

/-- Python `str.splitlines`. -/
def splitlinesL (s : List Char) : List (List Char) :=
  if s.isEmpty then [] else splitAux [] s

/-- Embedding of `_load_processed_ids`: `none` is a missing backing file;
otherwise strip, and split an non-empty remainder into lines. -/
def load_processed_ids (file : Option (List Char)) : List (List Char) :=
  match file with
  | none => []
  | some content =>
    if (pyStrip content).isEmpty then [] else splitlinesL (pyStrip content)

/- ------------------------------------------------------------------
Auxiliary notions used by the theorems below.
------------------------------------------------------------------ -/

/-- `w` occurs as a contiguous segment of `s`. -/
def SubSeg (w s : List Char) : Prop := ∃ a b, s = a ++ (w ++ b)

/-- No whitespace-to-whitespace adjacency in `s`. -/
def NoAdjWs : List Char → Prop
  | [] => True
  | [_] => True
  | a :: b :: t => ¬(isPyWs a = true ∧ isPyWs b = true) ∧ NoAdjWs (b :: t)

/-- Whitespace-normal: every whitespace character is a space, and no two
adjacent characters are both whitespace (shape of `subWs` output). -/
def WsNorm (s : List Char) : Prop :=
  (∀ c ∈ s, isPyWs c = true → c = ' ') ∧ NoAdjWs s

/-- No match of the `http[s]?://CLASS+` pattern anywhere in `s`. -/
def HttpFree (s : List Char) : Prop :=
  ¬ ∃ a d b, isUrlChar d = true ∧
    (s = a ++ ("http://".data ++ d :: b) ∨ s = a ++ ("https://".data ++ d :: b))

/-- No match of the `www\.CLASS+` pattern anywhere in `s`. -/
def WwwFree (s : List Char) : Prop :=
  ¬ ∃ a d b, isUrlChar d = true ∧ s = a ++ ("www.".data ++ d :: b)

/-- All messages of a cycle convert successfully (no exception raised by
`create_action_file` along the run). -/
def cycleOk (now : List Char) : WatcherState → List MsgData → Prop
  | _, [] => True
  | st, m :: ms =>
    ∃ st2 p, create_action_file st m now = Except.ok (st2, p) ∧ cycleOk now st2 ms

/-- A message whose header list has an entry without a `name` key:
`create_action_file` raises `KeyError` on it. -/
def c5BadDetails : EmailMsg :=
  ⟨some ⟨none, some [⟨none, none⟩], none⟩, some "s1".data⟩

/-- A plain well-formed message (snippet only). -/
def c5GoodDetails : EmailMsg :=
  ⟨none, some "hello there friends".data⟩

/-- Multipart message whose first `text/plain` part has undecodable body
data (base64 of the single byte 0xFF, which is not valid UTF-8) and whose
second `text/plain` part decodes to "hello". -/
def c3Msg : EmailMsg :=
  ⟨some ⟨some [⟨"text/plain".data, some "_w==".data⟩,
               ⟨"text/plain".data, some "aGVsbG8=".data⟩], none, none⟩,
   some "the snippet".data⟩

/-- The same message with only the good part. -/
def c3MsgGood : EmailMsg :=
  ⟨some ⟨some [⟨"text/plain".data, some "aGVsbG8=".data⟩], none, none⟩,
   some "the snippet".data⟩

/- ==================================================================
Theorems.
================================================================== -/

theorem startsWithL_iff (pat s : List Char) :
    startsWithL pat s = true ↔ ∃ t, s = pat ++ t := by
  induction pat generalizing s with
  | nil => simp [startsWithL]
  | cons p ps ih =>
    cases s with
    | nil => simp [startsWithL]
    | cons c cs =>
      simp only [startsWithL, Bool.and_eq_true, decide_eq_true_eq]
      rw [ih]
      constructor
      · rintro ⟨hpc, t, ht⟩
        exact ⟨t, by rw [ht, ← hpc]; rfl⟩
      · rintro ⟨t, ht⟩
        injection ht with h1 h2
        exact ⟨h1.symm, t, h2⟩

theorem occursIn_iff (pat s : List Char) :
    occursIn pat s = true ↔ ∃ a b, s = a ++ (pat ++ b) := by
  induction s with
  | nil =>
    rw [occursIn, startsWithL_iff]
    constructor
    · rintro ⟨t, ht⟩
      exact ⟨[], t, by simpa using ht⟩
    · rintro ⟨a, b, hab⟩
      have := hab.symm
      rw [List.append_eq_nil] at this
      exact ⟨b, by simp [this.1, this.2]⟩
  | cons c cs ih =>
    rw [occursIn, Bool.or_eq_true, startsWithL_iff, ih]
    constructor
    · rintro (⟨t, ht⟩ | ⟨a, b, hab⟩)
      · exact ⟨[], t, by simpa using ht⟩
      · exact ⟨c :: a, b, by simp [hab]⟩
    · rintro ⟨a, b, hab⟩
      cases a with
      | nil => exact Or.inl ⟨b, by simpa using hab⟩
      | cons x a2 =>
        injection hab with h1 h2
        exact Or.inr ⟨a2, b, h2⟩

/-- C4 (amended): the HTML-remnant filter `_is_html_only` returns true for
the empty string and the all-whitespace string, but FALSE for
`"<div></div>"` (the letters d, i, v are outside the tag-soup character
class); it returns false for `"Please review the attached contract"`; and
any string whose whitespace-collapsed stripped form consists only of
characters from the class `<>`, whitespace, `/=-"'[]` is classified
meaningless. -/
theorem claim_C4_amended :
    is_html_only [] = true ∧
    is_html_only "   ".data = true ∧
    is_html_only "<div></div>".data = false ∧
    is_html_only "Please review the attached contract".data = false ∧
    ∀ s : List Char, (∀ c ∈ pyStrip (subWs s), isTagSoupChar c = true) →
      is_html_only s = true := by
  refine ⟨rfl, rfl, ?_, ?_, ?_⟩
  · simp +decide [is_html_only, pyIsSpace, pyStrip, subWs, isPyWs, pyWsCodes, splitWsWords,
      isTagSoupChar, aposC, List.dropWhile, List.takeWhile]
  · simp +decide [is_html_only, pyIsSpace, pyStrip, subWs, isPyWs, pyWsCodes, splitWsWords,
      isTagSoupChar, aposC, List.dropWhile, List.takeWhile]
  · intro s h
    unfold is_html_only
    split
    · rfl
    · split
      · rfl
      · split
        · rfl
        · split
          · rfl
          · rename_i hall
            exact absurd (List.all_eq_true.mpr h) hall

/-- C4 witness: the universal clause applied to the concrete tag-soup
string `"<<<>>"`. -/
theorem claim_C4_witness : is_html_only "<<<>>".data = true :=
  claim_C4_amended.2.2.2.2 "<<<>>".data (by
    simp +decide [pyStrip, subWs, isPyWs, pyWsCodes, isTagSoupChar, aposC, List.dropWhile])

/-- C4 counterexample: the claim asserts `isMeaningless("<div></div>")` is
true, but `_is_html_only` returns false on it ("div" contains letters, so
the final character-class regex does not match and no earlier branch
fires). -/
theorem claim_C4_counterexample : is_html_only "<div></div>".data = false :=
  claim_C4_amended.2.2.1

/-- C7: `_determine_priority` returns "high" exactly when one of the ten
keywords occurs as a substring of the lower-cased concatenation
`subject + " " + sender + " " + body`, and "normal" otherwise; in
particular subject "URGENT: invoice due" is high and subject "lunch plans"
with unrelated body "see you at noon" is normal. -/
theorem claim_C7 :
    (∀ headers snippet,
      (determine_priority headers snippet = "high".data ↔
        ∃ kw ∈ high_priority_keywords,
          ∃ a b, priorityText headers snippet = a ++ (kw ++ b)) ∧
      (determine_priority headers snippet = "normal".data ↔
        ¬∃ kw ∈ high_priority_keywords,
          ∃ a b, priorityText headers snippet = a ++ (kw ++ b))) ∧
    determine_priority [("Subject".data, "URGENT: invoice due".data)] [] = "high".data ∧
    determine_priority [("Subject".data, "lunch plans".data)] "see you at noon".data
      = "normal".data := by
  refine ⟨?_, rfl, rfl⟩
  intro hs sn
  have hiff : (high_priority_keywords.any
      (fun kw => occursIn kw (priorityText hs sn)) = true)
      ↔ ∃ kw ∈ high_priority_keywords, ∃ a b, priorityText hs sn = a ++ (kw ++ b) := by
    rw [List.any_eq_true]
    constructor
    · rintro ⟨kw, hmem, hocc⟩
      exact ⟨kw, hmem, (occursIn_iff kw _).mp hocc⟩
    · rintro ⟨kw, hmem, hseg⟩
      exact ⟨kw, hmem, (occursIn_iff kw _).mpr hseg⟩
  unfold determine_priority
  split
  · rename_i hany
    exact ⟨⟨fun _ => hiff.mp hany, fun _ => rfl⟩,
      ⟨fun he => absurd he (by decide), fun hn => absurd (hiff.mp hany) hn⟩⟩
  · rename_i hany
    exact ⟨⟨fun he => absurd he (by decide), fun hex => absurd (hiff.mpr hex) hany⟩,
      ⟨fun _ => fun hex => absurd (hiff.mpr hex) hany, fun _ => rfl⟩⟩

/-- C10: when the (successfully extracted) header dictionary has no `From`
entry the note's from field is the literal "Unknown", and with no `Subject`
entry the subject field is "No Subject"; and every frontmatter field value
(default or real) goes through colon-to-semicolon replacement followed by
whitespace trimming before being written. -/
theorem claim_C10 :
    (∀ (st : WatcherState) (m : MsgData) (now : List Char)
        (hs : List (List Char × List Char)),
      msgHeaders m.details = Except.ok hs →
      dictGet hs "From".data = none →
      dictGet hs "Subject".data = none →
      create_action_file st m now = Except.ok
        (⟨upsertFile st.files ("EMAIL_".data ++ m.id ++ ".md".data)
            (renderNote "Unknown".data "No Subject".data now
              (determine_priority hs (extract_full_email_body m.details))
              (extract_full_email_body m.details)),
          addId st.processedIds m.id⟩,
         "EMAIL_".data ++ m.id ++ ".md".data)) ∧
    ∀ hs key dflt, headerFieldValue hs key dflt
      = pyStrip (colonToSemi ((dictGet hs key).getD dflt)) := by
  constructor
  · intro st m now hs hok hFrom hSubj
    unfold create_action_file
    rw [hok]
    dsimp only
    have h1 : headerFieldValue hs "From".data "Unknown".data = "Unknown".data := by
      unfold headerFieldValue
      rw [hFrom]
      rfl
    have h2 : headerFieldValue hs "Subject".data "No Subject".data = "No Subject".data := by
      unfold headerFieldValue
      rw [hSubj]
      rfl
    rw [h1, h2]
  · intro hs key dflt
    rfl

/-- C5 (amended): an exception from `create_action_file` on one message is
caught at the `run` level (the cycle yields a defined state, no crash), the
failing id is NOT added to the seen set — but it ABORTS the remaining
messages of the cycle: the state is exactly the state before the failing
message, whatever the rest of the item list is. -/
theorem claim_C5_amended :
    ∀ (now : List Char) (st : WatcherState) (m : MsgData) (ms : List MsgData),
      create_action_file st m now = Except.error () →
      processItems now st (m :: ms) = st ∧
      (m.id ∉ st.processedIds → m.id ∉ (processItems now st (m :: ms)).processedIds) := by
  intro now st m ms herr
  have h1 : processItems now st (m :: ms) = st := by
    unfold processItems
    rw [herr]
  exact ⟨h1, fun hnotin => by rw [h1]; exact hnotin⟩

/-- C5 witness: the amended theorem applied to a message whose header list
has an entry without a name key. -/
theorem claim_C5_witness :
    processItems "T".data ⟨[], []⟩ [⟨"id1".data, c5BadDetails⟩] = ⟨[], []⟩ :=
  (claim_C5_amended "T".data ⟨[], []⟩ ⟨"id1".data, c5BadDetails⟩ [] rfl).1

/-- C5 counterexample: with a failing first message and a processable
second message in the same cycle, the cycle ends with the second message
unprocessed (no file, id unseen), though it would be processed on its own —
refuting "does not prevent the remaining messages of the same cycle from
being processed". -/
theorem claim_C5_counterexample :
    processItems "T".data ⟨[], []⟩
      [⟨"id1".data, c5BadDetails⟩, ⟨"id2".data, c5GoodDetails⟩] = ⟨[], []⟩ ∧
    (processItems "T".data ⟨[], []⟩ [⟨"id2".data, c5GoodDetails⟩]).files ≠ [] := by
  constructor
  · rfl
  · have hc : create_action_file ⟨[], []⟩ ⟨"id2".data, c5GoodDetails⟩ "T".data = Except.ok
        (⟨[("EMAIL_".data ++ "id2".data ++ ".md".data,
            renderNote "Unknown".data "No Subject".data "T".data
              (determine_priority [] (extract_full_email_body c5GoodDetails))
              (extract_full_email_body c5GoodDetails))],
          ["id2".data]⟩, "EMAIL_".data ++ "id2".data ++ ".md".data) := rfl
    unfold processItems
    rw [hc]
    intro hfiles
    exact absurd (congrArg List.length hfiles) (by simp [processItems])

/-- Helper: a prefix of parts none of which is a usable `text/plain` part
does not affect the first extraction pass. -/
theorem scanPlainParts_append (pre l : List EmailPart)
    (h : ∀ p ∈ pre, p.mimeType = "text/plain".data → (p.body = none ∨ p.body = some [])) :
    scanPlainParts (pre ++ l) = scanPlainParts l := by
  induction pre with
  | nil => rfl
  | cons p ps ih =>
    have hrest : ∀ q ∈ ps, q.mimeType = "text/plain".data →
        (q.body = none ∨ q.body = some []) := fun q hq => h q (by simp [hq])
    rw [List.cons_append]
    conv_lhs => unfold scanPlainParts
    split
    · exact ih hrest
    · split
      · rename_i hmime
        have hp := h p (by simp) hmime
        rcases hp with hb | hb <;> rw [hb]
        · exact ih hrest
        · simpa using ih hrest
      · exact ih hrest

/-- Helper: the first pass hits a `text/plain` part with non-empty,
cleanly decoding data. -/
theorem scanPlainParts_hit (d t : List Char) (post : List EmailPart)
    (hd : d ≠ []) (ht : decodePartData d = Except.ok t) :
    scanPlainParts (⟨"text/plain".data, some d⟩ :: post)
      = Except.ok (some (cleanupResult t)) := by
  have hie : d.isEmpty = false := by
    cases d with
    | nil => exact absurd rfl hd
    | cons x xs => rfl
  unfold scanPlainParts
  dsimp only
  rw [if_neg (by decide), if_pos rfl, if_neg (show ¬(d.isEmpty = true) by simp [hie]), ht]

/-- Helper: the first pass throws on a `text/plain` part with non-empty
data that fails to decode, regardless of the remaining parts. -/
theorem scanPlainParts_throw (d : List Char) (post : List EmailPart)
    (hd : d ≠ []) (ht : decodePartData d = Except.error ()) :
    scanPlainParts (⟨"text/plain".data, some d⟩ :: post) = Except.error () := by
  have hie : d.isEmpty = false := by
    cases d with
    | nil => exact absurd rfl hd
    | cons x xs => rfl
  unfold scanPlainParts
  dsimp only
  rw [if_neg (by decide), if_pos rfl, if_neg (show ¬(d.isEmpty = true) by simp [hie]), ht]

/-- Helper: parts that are all images produce no hit in the first pass. -/
theorem scanPlainParts_images (l : List EmailPart)
    (h : ∀ p ∈ l, startsWithL "image/".data p.mimeType = true) :
    scanPlainParts l = Except.ok none := by
  induction l with
  | nil => rfl
  | cons p ps ih =>
    unfold scanPlainParts
    rw [if_pos (h p (by simp))]
    exact ih (fun q hq => h q (by simp [hq]))

/-- Helper: parts that are all images produce no hit in the second pass. -/
theorem scanHtmlParts_images (l : List EmailPart)
    (h : ∀ p ∈ l, startsWithL "image/".data p.mimeType = true) :
    scanHtmlParts l = Except.ok none := by
  induction l with
  | nil => rfl
  | cons p ps ih =>
    unfold scanHtmlParts
    rw [if_pos (h p (by simp))]
    exact ih (fun q hq => h q (by simp [hq]))

/-- C3 (amended): a decode error on a candidate part does NOT merely skip
that part: the exception aborts the whole part scan and the top-level
handler falls back to the cleaned snippet (with the extraction-failed
default), never reaching the remaining candidates. -/
theorem claim_C3_amended :
    ∀ (msg : EmailMsg) (pl : EmailPayload) (d : List Char) (rest : List EmailPart),
      msg.payload = some pl →
      pl.parts = some (⟨"text/plain".data, some d⟩ :: rest) →
      d ≠ [] →
      decodePartData d = Except.error () →
      extract_full_email_body msg = cleanupResult (msg.snippet.getD failSnippet) := by
  intro msg pl d rest hp hparts hd hdec
  unfold extract_full_email_body extractInner
  rw [hp]
  dsimp only
  rw [hparts]
  dsimp only
  rw [scanPlainParts_throw d rest hd hdec]

/-- C3 witness: the amended theorem at the concrete two-part message whose
first part holds the byte 0xFF. -/
theorem claim_C3_witness :
    extract_full_email_body c3Msg = cleanupResult (c3Msg.snippet.getD failSnippet) :=
  claim_C3_amended c3Msg _ "_w==".data [⟨"text/plain".data, some "aGVsbG8=".data⟩]
    rfl rfl (by decide) rfl

/-- C3 counterexample: in the two-part message `c3Msg` the decode error on
the first `text/plain` part makes extraction return the (cleaned) snippet,
not the decodable text of the second `text/plain` part — which the message
`c3MsgGood` shows would be "hello". -/
theorem claim_C3_counterexample :
    extract_full_email_body c3Msg = "the snippet".data ∧
    extract_full_email_body c3MsgGood = "hello".data ∧
    ("the snippet".data : List Char) ≠ "hello".data := by
  refine ⟨?_, ?_, by decide⟩
  · have h1 : extract_full_email_body c3Msg
        = cleanupResult ((c3Msg.snippet).getD failSnippet) := by
      unfold extract_full_email_body extractInner c3Msg
      dsimp only
      rw [scanPlainParts_throw "_w==".data _ (by decide) rfl]
    rw [h1]
    show cleanupResult "the snippet".data = "the snippet".data
    unfold cleanupResult
    have he : ensure_plain_text "the snippet".data = "the snippet".data := by
      simp +decide [ensure_plain_text, clean_text, applyEntityMap, entity_map, replaceSub,
        unescapeL, unescapeL_cons, charref, namedRef, numRefDec, numRefHex, resolveEnt,
        entLookup, entityTable, prefFallback, isNameChar, subHttp, subHttp_cons, tryHttp,
        startsWithL, urlTail, subWww, subWww_cons, tryWww, subWs, isPyWs, pyWsCodes, pyStrip,
        subNl, subNl_cons, nlTryMatch, isSpaceTab, List.dropWhile, List.takeWhile, List.find?]
    rw [he]
    have hh : is_html_only "the snippet".data = false := by
      simp +decide [is_html_only, pyIsSpace, pyStrip, subWs, isPyWs, pyWsCodes, splitWsWords,
        isTagSoupChar, aposC, List.dropWhile, List.takeWhile]
    rw [hh]
    rfl
  · have h1 : extract_full_email_body c3MsgGood = cleanupResult "hello".data := by
      unfold extract_full_email_body extractInner c3MsgGood
      dsimp only
      rw [scanPlainParts_hit "aGVsbG8=".data "hello".data [] (by decide) rfl]
    rw [h1]
    unfold cleanupResult
    have he : ensure_plain_text "hello".data = "hello".data := by
      simp +decide [ensure_plain_text, clean_text, applyEntityMap, entity_map, replaceSub,
        unescapeL, unescapeL_cons, charref, namedRef, numRefDec, numRefHex, resolveEnt,
        entLookup, entityTable, prefFallback, isNameChar, subHttp, subHttp_cons, tryHttp,
        startsWithL, urlTail, subWww, subWww_cons, tryWww, subWs, isPyWs, pyWsCodes, pyStrip,
        subNl, subNl_cons, nlTryMatch, isSpaceTab, List.dropWhile, List.takeWhile, List.find?]
    rw [he]
    have hh : is_html_only "hello".data = false := by
      simp +decide [is_html_only, pyIsSpace, pyStrip, subWs, isPyWs, pyWsCodes, splitWsWords,
        isTagSoupChar, aposC, List.dropWhile, List.takeWhile]
    rw [hh]
    rfl

/-- C6: among sibling parts, the first pass picks the `text/plain` part
regardless of where it sits relative to a `text/html` sibling; and parts
whose mime type starts with `image/` are never selected by either pass,
even when they are the only parts with data — extraction then falls
through to the cleaned snippet. -/
theorem claim_C6 :
    (∀ (msg : EmailMsg) (pl : EmailPayload) (pre post : List EmailPart)
        (d t : List Char),
      msg.payload = some pl →
      pl.parts = some (pre ++ ⟨"text/plain".data, some d⟩ :: post) →
      (∀ p ∈ pre, p.mimeType = "text/plain".data → (p.body = none ∨ p.body = some [])) →
      d ≠ [] →
      decodePartData d = Except.ok t →
      (∃ q ∈ pre ++ ⟨"text/plain".data, some d⟩ :: post,
        q.mimeType = "text/html".data ∧ ∃ e, q.body = some e ∧ e ≠ []) →
      extract_full_email_body msg = cleanupResult t) ∧
    (∀ (msg : EmailMsg) (pl : EmailPayload) (parts : List EmailPart),
      msg.payload = some pl →
      pl.parts = some parts →
      (∀ p ∈ parts, startsWithL "image/".data p.mimeType = true) →
      extract_full_email_body msg = cleanupResult (msg.snippet.getD defaultSnippet)) := by
  constructor
  · intro msg pl pre post d t hp hparts hpre hd ht _hhtml
    unfold extract_full_email_body extractInner
    rw [hp]
    dsimp only
    rw [hparts]
    dsimp only
    rw [scanPlainParts_append pre _ hpre, scanPlainParts_hit d t post hd ht]
  · intro msg pl parts hp hparts himg
    unfold extract_full_email_body extractInner
    rw [hp]
    dsimp only
    rw [hparts]
    dsimp only
    rw [scanPlainParts_images parts himg]
    dsimp only
    rw [scanHtmlParts_images parts himg]

/-- C6 witness: a message whose part list is [text/html, text/plain] (the
html part first) still extracts the plain part's text. -/
theorem claim_C6_witness :
    extract_full_email_body
      ⟨some ⟨some [⟨"text/html".data, some "eA==".data⟩,
                   ⟨"text/plain".data, some "aGVsbG8=".data⟩], none, none⟩,
       some "snip".data⟩ = cleanupResult "hello".data :=
  claim_C6.1 _ _ [⟨"text/html".data, some "eA==".data⟩] [] "aGVsbG8=".data "hello".data
    rfl rfl
    (by
      intro p hp hmime
      rw [List.mem_singleton] at hp
      subst hp
      exact absurd hmime (by decide))
    (by decide) rfl
    ⟨⟨"text/html".data, some "eA==".data⟩, by simp, rfl, "eA==".data, rfl, by decide⟩

/-- Helper: `set.add` contains the added element. -/
theorem addId_mem_self (ids : List (List Char)) (i : List Char) : i ∈ addId ids i := by
  unfold addId
  split
  · assumption
  · simp

/-- Helper: `set.add` keeps the existing elements. -/
theorem addId_mem_mono (ids : List (List Char)) (i j : List Char) (h : j ∈ ids) :
    j ∈ addId ids i := by
  unfold addId
  split
  · exact h
  · simp [h]

/-- Helper: a successful `create_action_file` marks the id seen and keeps
previously seen ids. -/
theorem create_mem_processed (st : WatcherState) (m : MsgData) (now : List Char)
    (st2 : WatcherState) (p : List Char)
    (h : create_action_file st m now = Except.ok (st2, p)) :
    m.id ∈ st2.processedIds ∧ ∀ i ∈ st.processedIds, i ∈ st2.processedIds := by
  unfold create_action_file at h
  split at h
  · exact absurd h (by simp)
  · simp only [Except.ok.injEq, Prod.mk.injEq] at h
    rw [← h.1]
    exact ⟨addId_mem_self _ _, fun i hi => addId_mem_mono _ _ _ hi⟩

/-- Helper: the processed-ids set only grows along a cycle. -/
theorem processItems_mono (now : List Char) :
    ∀ (items : List MsgData) (st : WatcherState),
      ∀ i ∈ st.processedIds, i ∈ (processItems now st items).processedIds := by
  intro items
  induction items with
  | nil => intro st i h; exact h
  | cons m ms ih =>
    intro st i h
    unfold processItems
    split
    · rename_i st2 p heq
      exact ih st2 i ((create_mem_processed st m now st2 p heq).2 i h)
    · exact h

/-- Helper: after a fully successful cycle every item's id is seen. -/
theorem processItems_ids (now : List Char) :
    ∀ (items : List MsgData) (st : WatcherState),
      cycleOk now st items →
      ∀ m ∈ items, m.id ∈ (processItems now st items).processedIds := by
  intro items
  induction items with
  | nil => intro st _ m hm; exact absurd hm (by simp)
  | cons m0 ms ih =>
    intro st hok m hm
    obtain ⟨st2, p, hcreate, hrest⟩ := hok
    unfold processItems
    rw [hcreate]
    rcases List.mem_cons.mp hm with hm0 | hms
    · subst hm0
      exact processItems_mono now ms st2 m.id (create_mem_processed st m now st2 p hcreate).1
    · exact ih st2 hrest m hms

/-- C9: ids in the seen set are filtered out before the detail fetch, so a
second poll cycle over the same fetch result as a fully successful first
cycle changes nothing (no new file, no rewritten note); and a first cycle
over one unseen message starting from an empty vault yields exactly the one
file `EMAIL_<id>.md`. -/
theorem claim_C9 :
    (∀ (st : WatcherState) (fetched : List (List Char))
        (getDetail : List Char → EmailMsg) (now now2 : List Char),
      cycleOk now st (check_for_updates st fetched getDetail) →
      run_cycle (run_cycle st fetched getDetail now) fetched getDetail now2
        = run_cycle st fetched getDetail now) ∧
    (∀ (id0 : List Char) (details : EmailMsg) (now : List Char)
        (st2 : WatcherState) (p : List Char),
      create_action_file ⟨[], []⟩ ⟨id0, details⟩ now = Except.ok (st2, p) →
      run_cycle ⟨[], []⟩ [id0] (fun _ => details) now = st2 ∧
      (run_cycle ⟨[], []⟩ [id0] (fun _ => details) now).files.map (fun e => e.1)
        = ["EMAIL_".data ++ id0 ++ ".md".data]) := by
  constructor
  · intro st fetched getDetail now now2 hok
    have hall : ∀ i ∈ fetched,
        i ∈ (run_cycle st fetched getDetail now).processedIds := by
      intro i hi
      by_cases hseen : i ∈ st.processedIds
      · exact processItems_mono now _ st i hseen
      · have hfil : i ∈ fetched.filter (fun j => !(decide (j ∈ st.processedIds))) :=
          List.mem_filter.mpr ⟨hi, by simp [hseen]⟩
        have hitem : (⟨i, getDetail i⟩ : MsgData)
            ∈ check_for_updates st fetched getDetail := by
          unfold check_for_updates
          exact List.mem_map.mpr ⟨i, hfil, rfl⟩
        exact processItems_ids now _ st hok ⟨i, getDetail i⟩ hitem
    have hempty : check_for_updates (run_cycle st fetched getDetail now) fetched getDetail
        = [] := by
      unfold check_for_updates
      have : fetched.filter
          (fun j => !(decide (j ∈ (run_cycle st fetched getDetail now).processedIds)))
          = [] := by
        rw [List.filter_eq_nil_iff]
        intro a ha
        simp [hall a ha]
      rw [this]
      rfl
    show processItems now2 _ (check_for_updates _ fetched getDetail) = _
    rw [hempty]
    rfl
  · intro id0 details now st2 p hcreate
    have hrun : run_cycle ⟨[], []⟩ [id0] (fun _ => details) now = st2 := by
      unfold run_cycle check_for_updates
      have hfil : ([id0].filter
          (fun j => !(decide (j ∈ (⟨[], []⟩ : WatcherState).processedIds)))) = [id0] := by
        simp
      rw [hfil]
      show processItems now ⟨[], []⟩ [⟨id0, details⟩] = st2
      unfold processItems
      rw [hcreate]
      rfl
    refine ⟨hrun, ?_⟩
    rw [hrun]
    unfold create_action_file at hcreate
    split at hcreate
    · exact absurd hcreate (by simp)
    · simp only [Except.ok.injEq, Prod.mk.injEq] at hcreate
      rw [← hcreate.1]
      show (upsertFile [] _ _).map (fun e => e.1) = _
      unfold upsertFile
      simp

/-- C9 witness: the second-cycle part of C9 applied to a concrete one-message
fetch result on an initially empty state. -/
theorem claim_C9_witness :
    run_cycle (run_cycle ⟨[], []⟩ ["w1".data] (fun _ => ⟨none, some "hi".data⟩) "T1".data)
        ["w1".data] (fun _ => ⟨none, some "hi".data⟩) "T2".data
      = run_cycle ⟨[], []⟩ ["w1".data] (fun _ => ⟨none, some "hi".data⟩) "T1".data :=
  claim_C9.1 ⟨[], []⟩ ["w1".data] (fun _ => ⟨none, some "hi".data⟩) "T1".data "T2".data
    (by
      have hcfu : check_for_updates ⟨[], []⟩ ["w1".data] (fun _ => ⟨none, some "hi".data⟩)
          = [⟨"w1".data, ⟨none, some "hi".data⟩⟩] := by
        unfold check_for_updates
        simp
      rw [hcfu]
      exact ⟨_, _, rfl, trivial⟩)

/-- Helper: the newline-normalisation pass is the identity on
newline-free text. -/
theorem subNl_id_of_no_nl (s : List Char) (h : '\n' ∉ s) : subNl s = s := by
  induction s using subNl.induct with
  | case1 => rw [subNl]
  | case2 c cs r hm ih =>
    exfalso
    unfold nlTryMatch at hm
    split at hm
    · exact absurd hm (by simp)
    · rename_i c2 r2 heq
      split at hm
      · rename_i hc2
        subst hc2
        have : ('\n' : Char) ∈ (c :: cs).dropWhile isSpaceTab := by
          rw [heq]
          simp
        exact h (List.Sublist.subset (List.dropWhile_sublist _) this)
      · exact absurd hm (by simp)
  | case3 c cs hm ih =>
    rw [subNl_cons, hm]
    have : '\n' ∉ cs := fun hc => h (by simp [hc])
    rw [ih this]

/-- Helper: characters of `subWs`'s output come from the input or are the
replacement space. -/
theorem subWs_mem (s : List Char) (c : Char) (h : c ∈ subWs s) : c ∈ s ∨ c = ' ' := by
  induction s using subWs.induct with
  | case1 => exact absurd h (by simp [subWs])
  | case2 c0 cs hws ih =>
    rw [subWs, if_pos hws] at h
    rcases List.mem_cons.mp h with hc | hc
    · exact Or.inr hc
    · rcases ih hc with hm | hsp
      · exact Or.inl (by
          have := List.Sublist.subset (List.dropWhile_sublist _) hm
          simp [this])
      · exact Or.inr hsp
  | case3 c0 cs hws ih =>
    rw [subWs, if_neg hws] at h
    rcases List.mem_cons.mp h with hc | hc
    · exact Or.inl (by simp [hc])
    · rcases ih hc with hm | hsp
      · exact Or.inl (by simp [hm])
      · exact Or.inr hsp

/-- Helper: every whitespace character in `subWs`'s output is a space. -/
theorem subWs_ws_space (s : List Char) (c : Char) (h : c ∈ subWs s)
    (hws : isPyWs c = true) : c = ' ' := by
  induction s using subWs.induct with
  | case1 => exact absurd h (by simp [subWs])
  | case2 c0 cs h0 ih =>
    rw [subWs, if_pos h0] at h
    rcases List.mem_cons.mp h with hc | hc
    · exact hc
    · exact ih hc
  | case3 c0 cs h0 ih =>
    rw [subWs, if_neg h0] at h
    rcases List.mem_cons.mp h with hc | hc
    · exact absurd (hc ▸ hws) h0
    · exact ih hc

/-- Helper: `subWs` output never contains a newline. -/
theorem subWs_no_nl (s : List Char) : '\n' ∉ subWs s := by
  intro h
  have := subWs_ws_space s '\n' h (by decide)
  exact absurd this (by decide)

/-- Helper: stripping only removes characters. -/
theorem pyStrip_subset (s : List Char) (c : Char) (h : c ∈ pyStrip s) : c ∈ s := by
  unfold pyStrip at h
  rw [List.mem_reverse] at h
  have h2 := List.Sublist.subset (List.dropWhile_sublist _) h
  rw [List.mem_reverse] at h2
  exact List.Sublist.subset (List.dropWhile_sublist _) h2

/-- Helper: the final newline-normalisation pass of `_clean_text` is the
identity (its input, the collapsed stripped text, has no newline), so the
pipeline reduces to unescape, URL removal, collapse, strip. -/
theorem clean_text_spec (s : List Char) :
    clean_text s = pyStrip (subWs (subWww (subHttp (unescapeL s)))) ∧
    '\n' ∉ clean_text s := by
  have hnl : '\n' ∉ pyStrip (subWs (subWww (subHttp (unescapeL s)))) :=
    fun hmem => subWs_no_nl _ (pyStrip_subset _ _ hmem)
  have heq : clean_text s = pyStrip (subWs (subWww (subHttp (unescapeL s)))) := by
    unfold clean_text
    split
    · rename_i hs
      have h0 : s = [] := by
        cases s with
        | nil => rfl
        | cons x xs => exact absurd hs (by simp)
      subst h0
      simp [unescapeL, subHttp, subWww, subWs, pyStrip]
    · exact subNl_id_of_no_nl _ hnl
  exact ⟨heq, heq ▸ hnl⟩

/-- C2 (amended): `_clean_text` collapses every whitespace run — newlines
included — to a single space BEFORE the newline-normalisation step; the
collapsed, stripped text therefore contains no newline, the final
`[ \t]*\n[ \t]*` pass is the identity on it (dead code), and no paragraph
break survives in the output. -/
theorem claim_C2_amended :
    ∀ s : List Char,
      clean_text s = pyStrip (subWs (subWww (subHttp (unescapeL s)))) ∧
      '\n' ∉ clean_text s := by
  intro s
  exact clean_text_spec s

/-- C2 witness: the amended equation at the concrete input `"a\nb"`. -/
theorem claim_C2_witness :
    clean_text "a\nb".data
      = pyStrip (subWs (subWww (subHttp (unescapeL "a\nb".data)))) :=
  (claim_C2_amended "a\nb".data).1

/-- C2 counterexample: the paragraph break of `"a\nb"` does not survive:
the normalizer returns `"a b"`, which contains no newline — refuting that
`[space/tab]*\n[space/tab]*` is reduced to a bare newline before the
whitespace collapse. -/
theorem claim_C2_counterexample :
    ensure_plain_text "a\nb".data = "a b".data ∧
    '\n' ∉ ensure_plain_text "a\nb".data := by
  have h : ensure_plain_text "a\nb".data = "a b".data := by
    simp +decide [ensure_plain_text, clean_text, applyEntityMap, entity_map, replaceSub,
      unescapeL, unescapeL_cons, charref, namedRef, numRefDec, numRefHex, resolveEnt,
      entLookup, entityTable, prefFallback, isNameChar, subHttp, subHttp_cons, tryHttp,
      startsWithL, urlTail, subWww, subWww_cons, tryWww, subWs, isPyWs, pyWsCodes, pyStrip,
      subNl, subNl_cons, nlTryMatch, isSpaceTab, List.dropWhile, List.takeWhile, List.find?]
  exact ⟨h, by rw [h]; decide⟩

/-- C8 counterexample: the id `" a"` is non-empty and newline-free, yet the
round trip loses its leading space — `load(save({" a"}))` yields `{"a"}`,
because `_load_processed_ids` strips the whole file content before
splitting. -/
theorem claim_C8_counterexample :
    save_processed_ids [" a".data] = " a".data ∧
    load_processed_ids (some (save_processed_ids [" a".data])) = ["a".data] ∧
    (" a".data : List Char) ∉ load_processed_ids (some (save_processed_ids [" a".data])) ∧
    (" a".data : List Char) ≠ [] ∧ '\n' ∉ (" a".data : List Char) := by
  have h1 : save_processed_ids [" a".data] = " a".data := rfl
  have h2 : load_processed_ids (some " a".data) = ["a".data] := by
    simp +decide [load_processed_ids, pyStrip, isPyWs, pyWsCodes, splitlinesL, splitAux,
      isLineBoundary, List.dropWhile]
  refine ⟨h1, by rw [h1]; exact h2, by rw [h1, h2]; decide, by decide, by decide⟩

theorem charToNat_inj (a b : Char) (h : a.toNat = b.toNat) : a = b := by
  have ha := Char.ofNat_toNat a
  have hb := Char.ofNat_toNat b
  rw [← ha, ← hb, h]

theorem mem_of_getLast (l : List Char) (c : Char) (h : l.getLast? = some c) : c ∈ l := by
  induction l with
  | nil => exact absurd h (by simp)
  | cons x xs ih =>
    cases xs with
    | nil =>
      simp only [List.getLast?_singleton, Option.some.injEq] at h
      simp [h]
    | cons y ys =>
      rw [show ((x :: y :: ys : List Char).getLast? = (y :: ys).getLast?) from rfl] at h
      simp [ih h]

/-- Helper: Python string comparison is total. -/
theorem lexLe_total (a b : List Char) : lexLeStr a b = true ∨ lexLeStr b a = true := by
  induction a generalizing b with
  | nil => exact Or.inl rfl
  | cons x xs ih =>
    cases b with
    | nil => exact Or.inr rfl
    | cons y ys =>
      by_cases hxy : x = y
      · subst hxy
        have e1 : lexLeStr (x :: xs) (x :: ys) = lexLeStr xs ys := by
          rw [show lexLeStr (x :: xs) (x :: ys)
              = if x = x then lexLeStr xs ys else decide (x.toNat < x.toNat) from rfl,
            if_pos rfl]
        have e2 : lexLeStr (x :: ys) (x :: xs) = lexLeStr ys xs := by
          rw [show lexLeStr (x :: ys) (x :: xs)
              = if x = x then lexLeStr ys xs else decide (x.toNat < x.toNat) from rfl,
            if_pos rfl]
        rw [e1, e2]
        exact ih ys
      · unfold lexLeStr
        rw [if_neg hxy, if_neg (fun h => hxy h.symm)]
        rcases Nat.lt_or_ge x.toNat y.toNat with h | h
        · exact Or.inl (by simpa using h)
        · rcases Nat.eq_or_lt_of_le h with he | hl2
          · exact absurd (charToNat_inj x y he.symm) hxy
          · exact Or.inr (by simpa using hl2)

/-- Helper: the head of an insertion is the inserted element or the old
head. -/
theorem insertSorted_head (x z : List Char) (l zs : List (List Char))
    (h : insertSorted x l = z :: zs) : z = x ∨ l.head? = some z := by
  cases l with
  | nil =>
    unfold insertSorted at h
    injection h with h1 h2
    exact Or.inl h1.symm
  | cons y ys =>
    unfold insertSorted at h
    split at h
    · injection h with h1 h2
      exact Or.inl h1.symm
    · injection h with h1 h2
      exact Or.inr (by rw [h1]; simp)

/-- Helper: insertion keeps adjacent sortedness. -/
theorem insertSorted_chain (x : List Char) (l : List (List Char))
    (hl : List.Chain' (fun a b => lexLeStr a b = true) l) :
    List.Chain' (fun a b => lexLeStr a b = true) (insertSorted x l) := by
  induction l with
  | nil => simp [insertSorted]
  | cons y ys ih =>
    unfold insertSorted
    split
    · rename_i hxy
      exact List.Chain'.cons hxy hl
    · rename_i hxy
      have hyx : lexLeStr y x = true := by
        rcases lexLe_total x y with h | h
        · exact absurd h hxy
        · exact h
      refine List.Chain'.cons' (ih (List.Chain'.tail hl)) ?_
      intro z hz
      cases hins : insertSorted x ys with
      | nil => rw [hins] at hz; exact absurd hz (by simp)
      | cons z0 zs =>
        rw [hins] at hz
        simp only [List.head?_cons, Option.mem_def, Option.some.injEq] at hz
        subst hz
        rcases insertSorted_head x z0 ys zs hins with hzx | hzh
        · rw [hzx]; exact hyx
        · cases ys with
          | nil => exact absurd hzh (by simp)
          | cons w ws =>
            simp only [List.head?_cons, Option.some.injEq] at hzh
            subst hzh
            exact (List.chain'_cons.mp hl).1

/-- Helper: sorting yields adjacent sortedness. -/
theorem sortStrs_chain (l : List (List Char)) :
    List.Chain' (fun a b => lexLeStr a b = true) (sortStrs l) := by
  induction l with
  | nil => simp [sortStrs]
  | cons x xs ih => exact insertSorted_chain x (sortStrs xs) ih

/-- Helper: insertion is a permutation of consing. -/
theorem insertSorted_perm (x : List Char) (l : List (List Char)) :
    (insertSorted x l).Perm (x :: l) := by
  induction l with
  | nil => exact List.Perm.refl _
  | cons y ys ih =>
    unfold insertSorted
    split
    · exact List.Perm.refl _
    · exact (List.Perm.cons y ih).trans (List.Perm.swap x y ys)

/-- Helper: sorting permutes. -/
theorem sortStrs_perm (l : List (List Char)) : (sortStrs l).Perm l := by
  induction l with
  | nil => exact List.Perm.refl _
  | cons x xs ih => exact (insertSorted_perm x (sortStrs xs)).trans (List.Perm.cons x ih)

/-- Helper: line boundaries are whitespace. -/
theorem lineBoundary_ws (c : Char) (h : isLineBoundary c = true) : isPyWs c = true := by
  unfold isLineBoundary at h
  unfold isPyWs pyWsCodes
  simp only [List.mem_cons, decide_eq_true_eq, List.not_mem_nil, or_false] at h ⊢
  omega

/-- Helper: `splitAux` on boundary-free input yields one line. -/
theorem splitAux_no_boundary (s : List Char) (h : ∀ c ∈ s, isLineBoundary c = false) :
    ∀ acc, splitAux acc s = [acc.reverse ++ s] := by
  induction s with
  | nil => intro acc; rw [splitAux]; simp
  | cons c cs ih =>
    intro acc
    rw [splitAux, if_neg (by simp [h c (by simp)])]
    rw [ih (fun d hd => h d (by simp [hd])) (c :: acc)]
    simp

/-- Helper: `splitAux` consumes one boundary-free line up to a newline. -/
theorem splitAux_line (x rest : List Char) (hx : ∀ c ∈ x, isLineBoundary c = false)
    (hrest : rest ≠ []) :
    ∀ acc, splitAux acc (x ++ '\n' :: rest) = (acc.reverse ++ x) :: splitAux [] rest := by
  induction x with
  | nil =>
    intro acc
    rw [List.nil_append, splitAux, if_pos (by decide)]
    have hcr : ¬('\n' = Char.ofNat 13 ∧ rest.head? = some '\n') := by
      intro hand
      exact absurd hand.1 (by decide)
    rw [if_neg hcr, if_neg (by simpa using hrest)]
    simp
  | cons c cs ih =>
    intro acc
    rw [List.cons_append, splitAux, if_neg (by simp [hx c (by simp)])]
    rw [ih (fun d hd => hx d (by simp [hd])) (c :: acc)]
    simp

/-- Helper: joining non-empty pieces yields a non-empty string. -/
theorem joinNl_ne_nil (x : List Char) (t : List (List Char)) (hx : x ≠ []) :
    joinNl (x :: t) ≠ [] := by
  cases t with
  | nil => simpa [joinNl]
  | cons y ys =>
    unfold joinNl
    simp [hx]

/-- Helper: `splitlines` inverts `'\n'.join` on non-empty boundary-free
pieces. -/
theorem splitlines_joinNl (l : List (List Char))
    (h : ∀ id ∈ l, id ≠ [] ∧ ∀ c ∈ id, isLineBoundary c = false) :
    splitlinesL (joinNl l) = l := by
  induction l with
  | nil => rfl
  | cons x t ih =>
    have hx := (h x (by simp)).1
    have hxb := (h x (by simp)).2
    cases t with
    | nil =>
      show splitlinesL (joinNl [x]) = [x]
      unfold joinNl splitlinesL
      rw [if_neg (by simpa using hx)]
      rw [splitAux_no_boundary x hxb []]
      simp
    | cons y ys =>
      have hy := (h y (by simp)).1
      have hjoin : joinNl (x :: y :: ys) = x ++ '\n' :: joinNl (y :: ys) := rfl
      have hjne : joinNl (y :: ys) ≠ [] := joinNl_ne_nil y ys hy
      unfold splitlinesL
      rw [hjoin, if_neg (by
        simp only [List.isEmpty_eq_true, List.append_eq_nil]
        rintro ⟨h1, h2⟩
        exact absurd h1 hx)]
      rw [splitAux_line x (joinNl (y :: ys)) hxb hjne []]
      have ihy := ih (fun id hid => h id (by simp [List.mem_cons.mp hid]))
      unfold splitlinesL at ihy
      rw [if_neg (by simpa using hjne)] at ihy
      rw [ihy]
      simp

/-- Helper: `dropWhile` is the identity when the head fails the predicate. -/
theorem dropWhile_id_of_head (p : Char → Bool) (s : List Char)
    (h : ∀ c, s.head? = some c → p c = false) : s.dropWhile p = s := by
  cases s with
  | nil => rfl
  | cons c cs =>
    rw [List.dropWhile_cons, if_neg (by simp [h c rfl])]

/-- Helper: `strip` is the identity when both ends are non-whitespace. -/
theorem pyStrip_id (s : List Char)
    (hh : ∀ c, s.head? = some c → isPyWs c = false)
    (hl : ∀ c, s.getLast? = some c → isPyWs c = false) : pyStrip s = s := by
  unfold pyStrip
  rw [dropWhile_id_of_head _ s hh]
  rw [dropWhile_id_of_head _ s.reverse (fun c hc => hl c (by rwa [List.head?_reverse] at hc))]
  exact List.reverse_reverse s

/-- Helper: the first character of a `'\n'.join` of non-empty pieces is the
first character of the first piece. -/
theorem joinNl_head (l : List (List Char)) (hne : ∀ id ∈ l, id ≠ [])
    (c : Char) (hc : (joinNl l).head? = some c) :
    ∃ id ∈ l, c ∈ id := by
  cases l with
  | nil => exact absurd hc (by simp [joinNl])
  | cons x t =>
    have hx := hne x (by simp)
    cases x with
    | nil => exact absurd rfl hx
    | cons a as =>
      cases t with
      | nil =>
        simp only [joinNl, List.head?_cons, Option.some.injEq] at hc
        exact ⟨a :: as, by simp, by simp [← hc]⟩
      | cons y ys =>
        have : joinNl ((a :: as) :: y :: ys) = a :: (as ++ '\n' :: joinNl (y :: ys)) := rfl
        rw [this] at hc
        simp only [List.head?_cons, Option.some.injEq] at hc
        exact ⟨a :: as, by simp, by simp [← hc]⟩

/-- Helper: the last character of a `'\n'.join` of non-empty pieces is a
character of the last piece. -/
theorem joinNl_getLast (l : List (List Char)) (hne : ∀ id ∈ l, id ≠ []) (c : Char)
    (hc : (joinNl l).getLast? = some c) : ∃ id ∈ l, c ∈ id := by
  induction l with
  | nil => exact absurd hc (by simp [joinNl])
  | cons x t ih =>
    cases t with
    | nil =>
      simp only [joinNl] at hc
      exact ⟨x, by simp, mem_of_getLast x c hc⟩
    | cons y ys =>
      have hj : joinNl (x :: y :: ys) = x ++ '\n' :: joinNl (y :: ys) := rfl
      rw [hj] at hc
      rw [List.getLast?_append_of_ne_nil _ (by simp)] at hc
      have hjne : joinNl (y :: ys) ≠ [] := joinNl_ne_nil y ys (hne y (by simp))
      cases hcase : joinNl (y :: ys) with
      | nil => exact absurd hcase hjne
      | cons b bs =>
        rw [hcase] at hc
        rw [show ('\n' :: b :: bs : List Char).getLast? = (b :: bs).getLast? from rfl] at hc
        rw [← hcase] at hc
        obtain ⟨id, hid, hcid⟩ := ih (fun i hi => hne i (by simp [List.mem_cons.mp hi])) hc
        exact ⟨id, by simp [List.mem_cons.mp hid], hcid⟩

/-- C8 (amended): for ids that are non-empty and free of whitespace
characters (which include newlines and all of Python's line-boundary
characters), saving writes the ids sorted lexicographically one per line
and a subsequent load reproduces exactly the same collection; loading a
missing or empty backing file yields the empty set.  (The whitespace-free
restriction is necessary: ids merely "non-empty and newline-free" such as
" a" lose their leading space in the round trip, see the counterexample.) -/
theorem claim_C8_amended :
    (∀ ids : List (List Char),
      (∀ id ∈ ids, id ≠ [] ∧ ∀ c ∈ id, isPyWs c = false) →
      save_processed_ids ids = joinNl (sortStrs ids) ∧
      List.Chain' (fun a b => lexLeStr a b = true) (sortStrs ids) ∧
      load_processed_ids (some (save_processed_ids ids)) = sortStrs ids ∧
      (load_processed_ids (some (save_processed_ids ids))).Perm ids) ∧
    load_processed_ids none = [] ∧
    load_processed_ids (some []) = [] := by
  refine ⟨?_, rfl, rfl⟩
  intro ids hids
  have hsortmem : ∀ id ∈ sortStrs ids, id ≠ [] ∧ ∀ c ∈ id, isPyWs c = false :=
    fun id hid => hids id ((sortStrs_perm ids).subset hid)
  have hbound : ∀ id ∈ sortStrs ids, id ≠ [] ∧ ∀ c ∈ id, isLineBoundary c = false := by
    intro id hid
    refine ⟨(hsortmem id hid).1, fun c hc => ?_⟩
    by_cases hb : isLineBoundary c = true
    · exact absurd (lineBoundary_ws c hb) (by simp [(hsortmem id hid).2 c hc])
    · simpa using hb
  have hstrip : pyStrip (joinNl (sortStrs ids)) = joinNl (sortStrs ids) := by
    refine pyStrip_id _ ?_ ?_
    · intro c hc
      obtain ⟨id, hid, hcid⟩ := joinNl_head (sortStrs ids)
        (fun i hi => (hsortmem i hi).1) c hc
      exact (hsortmem id hid).2 c hcid
    · intro c hc
      obtain ⟨id, hid, hcid⟩ := joinNl_getLast (sortStrs ids)
        (fun i hi => (hsortmem i hi).1) c hc
      exact (hsortmem id hid).2 c hcid
  have hload : load_processed_ids (some (save_processed_ids ids)) = sortStrs ids := by
    unfold load_processed_ids save_processed_ids
    dsimp only
    rw [hstrip]
    cases hsort : sortStrs ids with
    | nil => rfl
    | cons x t =>
      have hxne : x ≠ [] := (hbound x (by rw [hsort]; simp)).1
      rw [if_neg (by simpa using joinNl_ne_nil x t hxne)]
      rw [← hsort, splitlines_joinNl (sortStrs ids) hbound]
  exact ⟨rfl, sortStrs_chain ids, hload, hload ▸ sortStrs_perm ids⟩

/-- C8 witness: the amended round trip at the two-element set of ids
`{"b", "a"}`. -/
theorem claim_C8_witness :
    load_processed_ids (some (save_processed_ids ["b".data, "a".data]))
      = sortStrs ["b".data, "a".data] :=
  (claim_C8_amended.1 ["b".data, "a".data] (by decide)).2.2.1

/- ------------------------------------------------------------------
Toolkit for the idempotence analysis of the Text Normalizer.
------------------------------------------------------------------ -/

theorem subSeg_nil_elim (w : List Char) (hw : w ≠ []) (h : SubSeg w []) : False := by
  obtain ⟨a, b, hab⟩ := h
  have := hab.symm
  rw [List.append_eq_nil] at this
  rw [List.append_eq_nil] at this  -- hmm shapes
  exact hw this.2.1

theorem subSeg_cons (w t : List Char) (c : Char) (h : SubSeg w t) : SubSeg w (c :: t) := by
  obtain ⟨a, b, hab⟩ := h
  exact ⟨c :: a, b, by rw [hab]; rfl⟩

theorem subSeg_cons_elim (w t : List Char) (c : Char) (h : SubSeg w (c :: t)) :
    (∃ b, c :: t = w ++ b) ∨ SubSeg w t := by
  obtain ⟨a, b, hab⟩ := h
  cases a with
  | nil => exact Or.inl ⟨b, by simpa using hab⟩
  | cons x a2 =>
    injection hab with h1 h2
    exact Or.inr ⟨a2, b, h2⟩

theorem subSeg_trans (w t s : List Char) (h1 : SubSeg w t) (h2 : SubSeg t s) : SubSeg w s := by
  obtain ⟨a1, b1, hab1⟩ := h1
  obtain ⟨a2, b2, hab2⟩ := h2
  exact ⟨a2 ++ a1, b1 ++ b2, by rw [hab2, hab1]; simp [List.append_assoc]⟩

theorem subSeg_of_suffix (w t s : List Char) (h1 : SubSeg w t) (h2 : t <:+ s) : SubSeg w s := by
  obtain ⟨pre, hpre⟩ := h2
  exact subSeg_trans w t s h1 ⟨pre, [], by rw [← hpre]; simp⟩

theorem startsWith_of_append (pat t : List Char) : startsWithL pat (pat ++ t) = true :=
  (startsWithL_iff pat (pat ++ t)).mpr ⟨t, rfl⟩

theorem startsWith_mem (pat s : List Char) (h : startsWithL pat s = true) :
    ∀ c ∈ pat, c ∈ s := by
  obtain ⟨t, ht⟩ := (startsWithL_iff pat s).mp h
  intro c hc
  rw [ht]
  exact List.mem_append_left t hc

/-- Helper: unescape is the identity on ampersand-free text. -/
theorem unescapeL_id (s : List Char) (h : '&' ∉ s) : unescapeL s = s := by
  induction s using unescapeL.induct with
  | case1 => rw [unescapeL]
  | case2 cs r rest heq ih =>
    exact absurd (by simp : ('&' : Char) ∈ '&' :: cs) h
  | case3 cs heq ih =>
    exact absurd (by simp : ('&' : Char) ∈ '&' :: cs) h
  | case4 c cs hne ih =>
    rw [unescapeL_cons, if_neg hne]
    rw [ih (fun hc => h (by simp [hc]))]

/-- Helper: `str.replace` is the identity when the pattern contains a
character absent from the text. -/
theorem replaceSub_id (pat repl s : List Char) (hamp : '&' ∈ pat) (h : '&' ∉ s) :
    replaceSub pat repl s = s := by
  induction s using replaceSub.induct pat repl with
  | case1 => rw [replaceSub]
  | case2 c cs hcond ih =>
    exact absurd (startsWith_mem pat (c :: cs) hcond.2 '&' hamp) h
  | case3 c cs hcond ih =>
    rw [replaceSub, if_neg hcond]
    rw [ih (fun hc => h (by simp [hc]))]

/-- Helper: the explicit entity map is the identity on ampersand-free
text (each pattern contains an ampersand). -/
theorem applyEntityMap_id (s : List Char) (h : '&' ∉ s) : applyEntityMap s = s := by
  unfold applyEntityMap entity_map
  simp only [List.foldl_cons, List.foldl_nil]
  rw [replaceSub_id _ _ s (by decide) h]
  rw [replaceSub_id _ _ s (by decide) h]
  rw [replaceSub_id _ _ s (by decide) h]
  rw [replaceSub_id _ _ s (by decide) h]
  rw [replaceSub_id _ _ s (by decide) h]
  rw [replaceSub_id _ _ s (by decide) h]

/-- Helper: `tryHttp`'s remainder is a suffix of its input. -/
theorem tryHttp_suffix (s r : List Char) (h : tryHttp s = some r) : r <:+ s := by
  unfold tryHttp at h
  split at h
  · unfold urlTail at h
    split at h
    · exact absurd h (by simp)
    · simp only [Option.some.injEq] at h
      rw [← h]
      exact (List.dropWhile_suffix _).trans (List.drop_suffix 8 s)
  · split at h
    · unfold urlTail at h
      split at h
      · exact absurd h (by simp)
      · simp only [Option.some.injEq] at h
        rw [← h]
        exact (List.dropWhile_suffix _).trans (List.drop_suffix 7 s)
    · exact absurd h (by simp)

/-- Helper: `tryWww`'s remainder is a suffix of its input. -/
theorem tryWww_suffix (s r : List Char) (h : tryWww s = some r) : r <:+ s := by
  unfold tryWww at h
  split at h
  · unfold urlTail at h
    split at h
    · exact absurd h (by simp)
    · simp only [Option.some.injEq] at h
      rw [← h]
      exact (List.dropWhile_suffix _).trans (List.drop_suffix 4 s)
  · exact absurd h (by simp)

/-- Helper: characters survive `subHttp` only from the input. -/
theorem subHttp_mem (s : List Char) (c : Char) (h : c ∈ subHttp s) : c ∈ s := by
  induction s using subHttp.induct with
  | case1 => exact absurd h (by simp [subHttp])
  | case2 c0 cs r hm ih =>
    rw [subHttp_cons, hm] at h
    exact (tryHttp_suffix _ _ hm).subset (ih h)
  | case3 c0 cs hm ih =>
    rw [subHttp_cons, hm] at h
    rcases List.mem_cons.mp h with hc | hc
    · simp [hc]
    · simp [ih hc]

/-- Helper: characters survive `subWww` only from the input. -/
theorem subWww_mem (s : List Char) (c : Char) (h : c ∈ subWww s) : c ∈ s := by
  induction s using subWww.induct with
  | case1 => exact absurd h (by simp [subWww])
  | case2 c0 cs r hm ih =>
    rw [subWww_cons, hm] at h
    exact (tryWww_suffix _ _ hm).subset (ih h)
  | case3 c0 cs hm ih =>
    rw [subWww_cons, hm] at h
    rcases List.mem_cons.mp h with hc | hc
    · simp [hc]
    · simp [ih hc]

/-- Helper: the head of a `dropWhile` result fails the predicate. -/
theorem head_dropWhile_not (p : Char → Bool) (l : List Char) (c : Char)
    (h : (l.dropWhile p).head? = some c) : p c = false := by
  induction l with
  | nil => exact absurd h (by simp)
  | cons x xs ih =>
    rw [List.dropWhile_cons] at h
    split at h
    · exact ih h
    · rename_i hx
      simp only [List.head?_cons, Option.some.injEq] at h
      rw [← h]
      simpa using hx

/-- Helper: the remainder of a URL match starts with a non-URL character
(or is empty) — the match is greedy. -/
theorem tryHttp_rest_head (s r : List Char) (c : Char) (h : tryHttp s = some r)
    (hc : r.head? = some c) : isUrlChar c = false := by
  unfold tryHttp at h
  split at h
  · unfold urlTail at h
    split at h
    · exact absurd h (by simp)
    · simp only [Option.some.injEq] at h
      rw [← h] at hc
      exact head_dropWhile_not _ _ _ hc
  · split at h
    · unfold urlTail at h
      split at h
      · exact absurd h (by simp)
      · simp only [Option.some.injEq] at h
        rw [← h] at hc
        exact head_dropWhile_not _ _ _ hc
    · exact absurd h (by simp)

/-- Helper: greediness for the `www\.` pattern. -/
theorem tryWww_rest_head (s r : List Char) (c : Char) (h : tryWww s = some r)
    (hc : r.head? = some c) : isUrlChar c = false := by
  unfold tryWww at h
  split at h
  · unfold urlTail at h
    split at h
    · exact absurd h (by simp)
    · simp only [Option.some.injEq] at h
      rw [← h] at hc
      exact head_dropWhile_not _ _ _ hc
  · exact absurd h (by simp)

/-- Helper: a successful `http` match exposes the scheme-plus-URL-character
shape of the input. -/
theorem tryHttp_shape (s r : List Char) (h : tryHttp s = some r) :
    ∃ d t, isUrlChar d = true ∧
      (s = "http://".data ++ d :: t ∨ s = "https://".data ++ d :: t) := by
  unfold tryHttp at h
  split at h
  · rename_i hs
    obtain ⟨rest, hrest⟩ := (startsWithL_iff _ _).mp hs
    unfold urlTail at h
    split at h
    · exact absurd h (by simp)
    · rename_i hne
      have hdrop : s.drop 8 = rest := by
        rw [hrest]
        rw [show (8 : Nat) = ("https://".data).length from rfl]
        exact List.drop_left _ _
      cases hcase : rest with
      | nil =>
        rw [hdrop, hcase] at hne
        simp at hne
      | cons d t =>
        have hd : isUrlChar d = true := by
          by_cases hdc : isUrlChar d = true
          · exact hdc
          · rw [hdrop, hcase, List.takeWhile_cons] at hne
            rw [if_neg (by simpa using hdc)] at hne
            simp at hne
        exact ⟨d, t, hd, Or.inr (by rw [hrest, hcase])⟩
  · split at h
    · rename_i hs
      obtain ⟨rest, hrest⟩ := (startsWithL_iff _ _).mp hs
      unfold urlTail at h
      split at h
      · exact absurd h (by simp)
      · rename_i hne
        have hdrop : s.drop 7 = rest := by
          rw [hrest]
          rw [show (7 : Nat) = ("http://".data).length from rfl]
          exact List.drop_left _ _
        cases hcase : rest with
        | nil =>
          rw [hdrop, hcase] at hne
          simp at hne
        | cons d t =>
          have hd : isUrlChar d = true := by
            by_cases hdc : isUrlChar d = true
            · exact hdc
            · rw [hdrop, hcase, List.takeWhile_cons] at hne
              rw [if_neg (by simpa using hdc)] at hne
              simp at hne
          exact ⟨d, t, hd, Or.inl (by rw [hrest, hcase])⟩
    · exact absurd h (by simp)

/-- Helper: a successful `www` match exposes the shape of the input. -/
theorem tryWww_shape (s r : List Char) (h : tryWww s = some r) :
    ∃ d t, isUrlChar d = true ∧ s = "www.".data ++ d :: t := by
  unfold tryWww at h
  split at h
  · rename_i hs
    obtain ⟨rest, hrest⟩ := (startsWithL_iff _ _).mp hs
    unfold urlTail at h
    split at h
    · exact absurd h (by simp)
    · rename_i hne
      have hdrop : s.drop 4 = rest := by
        rw [hrest]
        rw [show (4 : Nat) = ("www.".data).length from rfl]
        exact List.drop_left _ _
      cases hcase : rest with
      | nil =>
        rw [hdrop, hcase] at hne
        simp at hne
      | cons d t =>
        have hd : isUrlChar d = true := by
          by_cases hdc : isUrlChar d = true
          · exact hdc
          · rw [hdrop, hcase, List.takeWhile_cons] at hne
            rw [if_neg (by simpa using hdc)] at hne
            simp at hne
        exact ⟨d, t, hd, by rw [hrest, hcase]⟩
  · exact absurd h (by simp)

/-- Helper: the scheme-shape forces an `http` match. -/
theorem urlTail_cons_some (c : Char) (t : List Char) (hd : isUrlChar c = true) :
    urlTail (c :: t) ≠ none := by
  have htw : List.takeWhile isUrlChar (c :: t) = c :: List.takeWhile isUrlChar t := by
    rw [List.takeWhile_cons, if_pos hd]
  unfold urlTail
  rw [htw]
  simp

theorem tryHttp_of_shape (s t : List Char) (c : Char) (hd : isUrlChar c = true)
    (h : s = "http://".data ++ c :: t ∨ s = "https://".data ++ c :: t) :
    tryHttp s ≠ none := by
  unfold tryHttp
  rcases h with h | h <;> subst h
  · have hfirst : startsWithL "https://".data ("http://".data ++ c :: t) = false := rfl
    rw [if_neg (fun hcontra => Bool.false_ne_true (hfirst ▸ hcontra)),
      if_pos (startsWith_of_append _ _)]
    have hdrop : ("http://".data ++ c :: t).drop 7 = c :: t := by
      rw [show (7 : Nat) = ("http://".data).length from rfl]
      exact List.drop_left _ _
    rw [hdrop]
    exact urlTail_cons_some c t hd
  · rw [if_pos (startsWith_of_append _ _)]
    have hdrop : ("https://".data ++ c :: t).drop 8 = c :: t := by
      rw [show (8 : Nat) = ("https://".data).length from rfl]
      exact List.drop_left _ _
    rw [hdrop]
    exact urlTail_cons_some c t hd

/-- Helper: the `www.`-shape forces a `www` match. -/
theorem tryWww_of_shape (s t : List Char) (c : Char) (hd : isUrlChar c = true)
    (h : s = "www.".data ++ c :: t) : tryWww s ≠ none := by
  subst h
  unfold tryWww
  rw [if_pos (startsWith_of_append _ _)]
  have hdrop : ("www.".data ++ c :: t).drop 4 = c :: t := by
    rw [show (4 : Nat) = ("www.".data).length from rfl]
    exact List.drop_left _ _
  rw [hdrop]
  exact urlTail_cons_some c t hd

/-- Helper: a URL-character prefix of `subHttp`'s output is a prefix of the
input (deleted matches always end at a non-URL character). -/
theorem subHttp_startsWith (z : List Char) :
    ∀ w, w ≠ [] → (∀ c ∈ w, isUrlChar c = true) →
      startsWithL w (subHttp z) = true → startsWithL w z = true := by
  induction z using subHttp.induct with
  | case1 =>
    intro w hw hwc h
    rw [subHttp] at h
    cases w with
    | nil => exact absurd rfl hw
    | cons x ws => exact absurd h (by simp [startsWithL])
  | case2 c cs r hm ih =>
    intro w hw hwc h
    rw [subHttp_cons, hm] at h
    exfalso
    have h2 := ih w hw hwc h
    cases w with
    | nil => exact hw rfl
    | cons x ws =>
      obtain ⟨t, ht⟩ := (startsWithL_iff _ _).mp h2
      have hhead : r.head? = some x := by rw [ht]; rfl
      have := tryHttp_rest_head _ _ _ hm hhead
      exact absurd (hwc x (by simp)) (by simp [this])
  | case3 c cs hm ih =>
    intro w hw hwc h
    rw [subHttp_cons, hm] at h
    cases w with
    | nil => exact absurd rfl hw
    | cons x ws =>
      simp only [startsWithL, Bool.and_eq_true, decide_eq_true_eq] at h ⊢
      refine ⟨h.1, ?_⟩
      cases hws : ws with
      | nil => rfl
      | cons y ys =>
        rw [← hws]
        exact ih ws (by simp [hws]) (fun d hd => hwc d (by simp [hd])) (hws ▸ h.2 |> (hws ▸ ·))

/-- Helper: a URL-character segment of `subHttp`'s output occurs in the
input. -/
theorem subHttp_seg (z : List Char) :
    ∀ w, w ≠ [] → (∀ c ∈ w, isUrlChar c = true) →
      SubSeg w (subHttp z) → SubSeg w z := by
  induction z using subHttp.induct with
  | case1 =>
    intro w hw hwc h
    rw [subHttp] at h
    exact (subSeg_nil_elim w hw h).elim
  | case2 c cs r hm ih =>
    intro w hw hwc h
    rw [subHttp_cons, hm] at h
    exact subSeg_of_suffix w r _ (ih w hw hwc h) (tryHttp_suffix _ _ hm)
  | case3 c cs hm ih =>
    intro w hw hwc h
    rw [subHttp_cons, hm] at h
    rcases subSeg_cons_elim w _ c h with ⟨b, hb⟩ | hseg
    · have hsw : startsWithL w (subHttp (c :: cs)) = true := by
        rw [subHttp_cons, hm]
        exact (startsWithL_iff _ _).mpr ⟨b, hb⟩
      obtain ⟨t, ht⟩ := (startsWithL_iff _ _).mp (subHttp_startsWith (c :: cs) w hw hwc hsw)
      exact ⟨[], t, by rw [ht]; rfl⟩
    · exact subSeg_cons w cs c (ih w hw hwc hseg)

theorem httpPat1_chars (d : Char) (hd : isUrlChar d = true) :
    ∀ x ∈ "http://".data ++ [d], isUrlChar x = true := by
  intro x hx
  rcases List.mem_append.mp hx with h1 | h1
  · exact (by decide : ∀ y ∈ "http://".data, isUrlChar y = true) x h1
  · rw [List.mem_singleton] at h1
    rw [h1]
    exact hd

theorem httpPat2_chars (d : Char) (hd : isUrlChar d = true) :
    ∀ x ∈ "https://".data ++ [d], isUrlChar x = true := by
  intro x hx
  rcases List.mem_append.mp hx with h1 | h1
  · exact (by decide : ∀ y ∈ "https://".data, isUrlChar y = true) x h1
  · rw [List.mem_singleton] at h1
    rw [h1]
    exact hd

theorem wwwPat_chars (d : Char) (hd : isUrlChar d = true) :
    ∀ x ∈ "www.".data ++ [d], isUrlChar x = true := by
  intro x hx
  rcases List.mem_append.mp hx with h1 | h1
  · exact (by decide : ∀ y ∈ "www.".data, isUrlChar y = true) x h1
  · rw [List.mem_singleton] at h1
    rw [h1]
    exact hd

/-- Helper: an `http(s)://` occurrence is a URL-character segment. -/
theorem httpOcc_seg (s a d b : List Char) (c : Char)
    (h : s = a ++ (d ++ c :: b)) : SubSeg (d ++ [c]) s :=
  ⟨a, b, by rw [h]; simp⟩

/-- Helper: `subHttp` removes every match of its pattern. -/
theorem httpFree_subHttp (z : List Char) : HttpFree (subHttp z) := by
  induction z using subHttp.induct with
  | case1 =>
    have h0 : subHttp [] = [] := by rw [subHttp]
    rw [h0]
    rintro ⟨a, d, b, hd, h | h⟩ <;> simp at h
  | case2 c cs r hm ih =>
    rw [subHttp_cons, hm]
    exact ih
  | case3 c cs hm ih =>
    rw [subHttp_cons, hm]
    rintro ⟨a, d, b, hd, hor⟩
    rcases hor with hor | hor
    · have hseg : SubSeg ("http://".data ++ [d]) (c :: subHttp cs) := httpOcc_seg _ a _ b d hor
      rcases subSeg_cons_elim _ _ _ hseg with ⟨b2, hb2⟩ | hseg2
      · have hsw : startsWithL ("http://".data ++ [d]) (subHttp (c :: cs)) = true := by
          rw [subHttp_cons, hm]
          exact (startsWithL_iff _ _).mpr ⟨b2, hb2⟩
        obtain ⟨t, ht⟩ := (startsWithL_iff _ _).mp
          (subHttp_startsWith (c :: cs) _ (by simp) (httpPat1_chars d hd) hsw)
        exact tryHttp_of_shape (c :: cs) t d hd (Or.inl (by rw [ht]; simp)) hm
      · obtain ⟨a2, b2, hab2⟩ := hseg2
        exact ih ⟨a2, d, b2, hd, Or.inl (by rw [hab2]; simp)⟩
    · have hseg : SubSeg ("https://".data ++ [d]) (c :: subHttp cs) := httpOcc_seg _ a _ b d hor
      rcases subSeg_cons_elim _ _ _ hseg with ⟨b2, hb2⟩ | hseg2
      · have hsw : startsWithL ("https://".data ++ [d]) (subHttp (c :: cs)) = true := by
          rw [subHttp_cons, hm]
          exact (startsWithL_iff _ _).mpr ⟨b2, hb2⟩
        obtain ⟨t, ht⟩ := (startsWithL_iff _ _).mp
          (subHttp_startsWith (c :: cs) _ (by simp) (httpPat2_chars d hd) hsw)
        exact tryHttp_of_shape (c :: cs) t d hd (Or.inr (by rw [ht]; simp)) hm
      · obtain ⟨a2, b2, hab2⟩ := hseg2
        exact ih ⟨a2, d, b2, hd, Or.inr (by rw [hab2]; simp)⟩

theorem httpFree_cons_elim (c : Char) (cs : List Char) (h : HttpFree (c :: cs)) :
    HttpFree cs := by
  rintro ⟨a, d, b, hd, hor | hor⟩
  · exact h ⟨c :: a, d, b, hd, Or.inl (by rw [hor]; rfl)⟩
  · exact h ⟨c :: a, d, b, hd, Or.inr (by rw [hor]; rfl)⟩

/-- Helper: `subHttp` is the identity on match-free input. -/
theorem subHttp_id (z : List Char) : HttpFree z → subHttp z = z := by
  induction z using subHttp.induct with
  | case1 => intro h; rw [subHttp]
  | case2 c cs r hm ih =>
    intro h
    exfalso
    obtain ⟨d, t, hd, hor⟩ := tryHttp_shape (c :: cs) r hm
    refine h ⟨[], d, t, hd, ?_⟩
    rcases hor with h1 | h1
    · exact Or.inl (by rw [h1]; rfl)
    · exact Or.inr (by rw [h1]; rfl)
  | case3 c cs hm ih =>
    intro h
    rw [subHttp_cons, hm, ih (httpFree_cons_elim c cs h)]

/-- Helper: a URL-character prefix of `subWww`'s output is a prefix of the
input. -/
theorem subWww_startsWith (z : List Char) :
    ∀ w, w ≠ [] → (∀ c ∈ w, isUrlChar c = true) →
      startsWithL w (subWww z) = true → startsWithL w z = true := by
  induction z using subWww.induct with
  | case1 =>
    intro w hw hwc h
    rw [subWww] at h
    cases w with
    | nil => exact absurd rfl hw
    | cons x ws => exact absurd h (by simp [startsWithL])
  | case2 c cs r hm ih =>
    intro w hw hwc h
    rw [subWww_cons, hm] at h
    exfalso
    have h2 := ih w hw hwc h
    cases w with
    | nil => exact hw rfl
    | cons x ws =>
      obtain ⟨t, ht⟩ := (startsWithL_iff _ _).mp h2
      have hhead : r.head? = some x := by rw [ht]; rfl
      have := tryWww_rest_head _ _ _ hm hhead
      exact absurd (hwc x (by simp)) (by simp [this])
  | case3 c cs hm ih =>
    intro w hw hwc h
    rw [subWww_cons, hm] at h
    cases w with
    | nil => exact absurd rfl hw
    | cons x ws =>
      simp only [startsWithL, Bool.and_eq_true, decide_eq_true_eq] at h ⊢
      refine ⟨h.1, ?_⟩
      cases hws : ws with
      | nil => rfl
      | cons y ys =>
        rw [← hws]
        exact ih ws (by simp [hws]) (fun d hd => hwc d (by simp [hd])) h.2

/-- Helper: a URL-character segment of `subWww`'s output occurs in the
input. -/
theorem subWww_seg (z : List Char) :
    ∀ w, w ≠ [] → (∀ c ∈ w, isUrlChar c = true) →
      SubSeg w (subWww z) → SubSeg w z := by
  induction z using subWww.induct with
  | case1 =>
    intro w hw hwc h
    rw [subWww] at h
    exact (subSeg_nil_elim w hw h).elim
  | case2 c cs r hm ih =>
    intro w hw hwc h
    rw [subWww_cons, hm] at h
    exact subSeg_of_suffix w r _ (ih w hw hwc h) (tryWww_suffix _ _ hm)
  | case3 c cs hm ih =>
    intro w hw hwc h
    rw [subWww_cons, hm] at h
    rcases subSeg_cons_elim w _ c h with ⟨b, hb⟩ | hseg
    · have hsw : startsWithL w (subWww (c :: cs)) = true := by
        rw [subWww_cons, hm]
        exact (startsWithL_iff _ _).mpr ⟨b, hb⟩
      obtain ⟨t, ht⟩ := (startsWithL_iff _ _).mp (subWww_startsWith (c :: cs) w hw hwc hsw)
      exact ⟨[], t, by rw [ht]; rfl⟩
    · exact subSeg_cons w cs c (ih w hw hwc hseg)

/-- Helper: `subWww` removes every match of its pattern. -/
theorem wwwFree_subWww (z : List Char) : WwwFree (subWww z) := by
  induction z using subWww.induct with
  | case1 =>
    have h0 : subWww [] = [] := by rw [subWww]
    rw [h0]
    rintro ⟨a, d, b, hd, h⟩
    simp at h
  | case2 c cs r hm ih =>
    rw [subWww_cons, hm]
    exact ih
  | case3 c cs hm ih =>
    rw [subWww_cons, hm]
    rintro ⟨a, d, b, hd, hor⟩
    have hseg : SubSeg ("www.".data ++ [d]) (c :: subWww cs) := httpOcc_seg _ a _ b d hor
    rcases subSeg_cons_elim _ _ _ hseg with ⟨b2, hb2⟩ | hseg2
    · have hsw : startsWithL ("www.".data ++ [d]) (subWww (c :: cs)) = true := by
        rw [subWww_cons, hm]
        exact (startsWithL_iff _ _).mpr ⟨b2, hb2⟩
      obtain ⟨t, ht⟩ := (startsWithL_iff _ _).mp
        (subWww_startsWith (c :: cs) _ (by simp) (wwwPat_chars d hd) hsw)
      exact tryWww_of_shape (c :: cs) t d hd (by rw [ht]; simp) hm
    · obtain ⟨a2, b2, hab2⟩ := hseg2
      exact ih ⟨a2, d, b2, hd, by rw [hab2]; simp⟩

theorem wwwFree_cons_elim (c : Char) (cs : List Char) (h : WwwFree (c :: cs)) :
    WwwFree cs := by
  rintro ⟨a, d, b, hd, hor⟩
  exact h ⟨c :: a, d, b, hd, by rw [hor]; rfl⟩

/-- Helper: `subWww` is the identity on match-free input. -/
theorem subWww_id (z : List Char) : WwwFree z → subWww z = z := by
  induction z using subWww.induct with
  | case1 => intro h; rw [subWww]
  | case2 c cs r hm ih =>
    intro h
    exfalso
    obtain ⟨d, t, hd, h1⟩ := tryWww_shape (c :: cs) r hm
    exact h ⟨[], d, t, hd, by rw [h1]; rfl⟩
  | case3 c cs hm ih =>
    intro h
    rw [subWww_cons, hm, ih (wwwFree_cons_elim c cs h)]

/-- Helper: `subWww` preserves absence of `http` matches (a deleted `www`
match also ends at a non-URL character, so no new scheme can form). -/
theorem httpFree_subWww (z : List Char) (h : HttpFree z) : HttpFree (subWww z) := by
  rintro ⟨a, d, b, hd, hor⟩
  rcases hor with hor | hor
  · have hseg := subWww_seg z ("http://".data ++ [d]) (by simp) (httpPat1_chars d hd)
      (httpOcc_seg _ a _ b d hor)
    obtain ⟨a2, b2, hab2⟩ := hseg
    exact h ⟨a2, d, b2, hd, Or.inl (by rw [hab2]; simp)⟩
  · have hseg := subWww_seg z ("https://".data ++ [d]) (by simp) (httpPat2_chars d hd)
      (httpOcc_seg _ a _ b d hor)
    obtain ⟨a2, b2, hab2⟩ := hseg
    exact h ⟨a2, d, b2, hd, Or.inr (by rw [hab2]; simp)⟩

theorem urlChar_not_ws (c : Char) (h : isUrlChar c = true) : isPyWs c = false := by
  unfold isUrlChar at h
  simp only [Bool.or_eq_true, Bool.and_eq_true, decide_eq_true_eq] at h
  simp only [isPyWs, pyWsCodes, List.mem_cons, List.not_mem_nil, or_false,
    decide_eq_false_iff_not]
  omega

/-- Helper: the stripped string is a contiguous segment of the input. -/
theorem pyStrip_subseg (s : List Char) : SubSeg (pyStrip s) s := by
  have h1 : s.takeWhile (fun c => isPyWs c) ++ s.dropWhile (fun c => isPyWs c) = s :=
    List.takeWhile_append_dropWhile _ _
  have h2 : (s.dropWhile (fun c => isPyWs c)).reverse.takeWhile (fun c => isPyWs c) ++
      (s.dropWhile (fun c => isPyWs c)).reverse.dropWhile (fun c => isPyWs c) =
      (s.dropWhile (fun c => isPyWs c)).reverse :=
    List.takeWhile_append_dropWhile _ _
  have hd1 : s.dropWhile (fun c => isPyWs c) = pyStrip s ++
      ((s.dropWhile (fun c => isPyWs c)).reverse.takeWhile (fun c => isPyWs c)).reverse := by
    unfold pyStrip
    conv_lhs => rw [← List.reverse_reverse (s.dropWhile (fun c => isPyWs c)), ← h2]
    rw [List.reverse_append]
  refine ⟨s.takeWhile (fun c => isPyWs c),
    ((s.dropWhile (fun c => isPyWs c)).reverse.takeWhile (fun c => isPyWs c)).reverse, ?_⟩
  conv_lhs => rw [← h1, hd1]

/-- Helper: a whitespace-free prefix of `subWs`'s output is a prefix of the
input. -/
theorem subWs_startsWith (z : List Char) :
    ∀ w, w ≠ [] → (∀ c ∈ w, isPyWs c = false) →
      startsWithL w (subWs z) = true → startsWithL w z = true := by
  induction z using subWs.induct with
  | case1 =>
    intro w hw hwc h
    rw [subWs] at h
    cases w with
    | nil => exact absurd rfl hw
    | cons x ws => exact absurd h (by simp [startsWithL])
  | case2 c cs hws ih =>
    intro w hw hwc h
    rw [subWs, if_pos hws] at h
    exfalso
    cases w with
    | nil => exact hw rfl
    | cons x ws2 =>
      simp only [startsWithL, Bool.and_eq_true, decide_eq_true_eq] at h
      have : isPyWs x = false := hwc x (by simp)
      rw [h.1] at this
      exact absurd this (by decide)
  | case3 c cs hws ih =>
    intro w hw hwc h
    rw [subWs, if_neg hws] at h
    cases w with
    | nil => exact absurd rfl hw
    | cons x ws2 =>
      simp only [startsWithL, Bool.and_eq_true, decide_eq_true_eq] at h ⊢
      refine ⟨h.1, ?_⟩
      cases hws2 : ws2 with
      | nil => rfl
      | cons y ys =>
        rw [← hws2]
        exact ih ws2 (by simp [hws2]) (fun d hd => hwc d (by simp [hd])) h.2

/-- Helper: a whitespace-free segment of `subWs`'s output occurs in the
input. -/
theorem subWs_seg (z : List Char) :
    ∀ w, w ≠ [] → (∀ c ∈ w, isPyWs c = false) →
      SubSeg w (subWs z) → SubSeg w z := by
  induction z using subWs.induct with
  | case1 =>
    intro w hw hwc h
    rw [subWs] at h
    exact (subSeg_nil_elim w hw h).elim
  | case2 c cs hws ih =>
    intro w hw hwc h
    rw [subWs, if_pos hws] at h
    rcases subSeg_cons_elim w _ ' ' h with ⟨b, hb⟩ | hseg
    · exfalso
      cases w with
      | nil => exact hw rfl
      | cons x ws2 =>
        injection hb with hb1 hb2
        have : isPyWs x = false := hwc x (by simp)
        rw [← hb1] at this
        exact absurd this (by decide)
    · have h1 := ih w hw hwc hseg
      have h2 := subSeg_of_suffix w _ cs h1 (List.dropWhile_suffix _)
      exact subSeg_cons w cs c h2
  | case3 c cs hws ih =>
    intro w hw hwc h
    rw [subWs, if_neg hws] at h
    rcases subSeg_cons_elim w _ c h with ⟨b, hb⟩ | hseg
    · have hsw : startsWithL w (subWs (c :: cs)) = true := by
        rw [subWs, if_neg hws]
        exact (startsWithL_iff _ _).mpr ⟨b, hb⟩
      obtain ⟨t, ht⟩ := (startsWithL_iff _ _).mp (subWs_startsWith (c :: cs) w hw hwc hsw)
      exact ⟨[], t, by rw [ht]; rfl⟩
    · exact subSeg_cons w cs c (ih w hw hwc hseg)

theorem httpFree_subWs (z : List Char) (h : HttpFree z) : HttpFree (subWs z) := by
  rintro ⟨a, d, b, hd, hor⟩
  rcases hor with hor | hor
  · obtain ⟨a2, b2, hab2⟩ := subWs_seg z ("http://".data ++ [d]) (by simp)
      (fun x hx => urlChar_not_ws x (httpPat1_chars d hd x hx)) (httpOcc_seg _ a _ b d hor)
    exact h ⟨a2, d, b2, hd, Or.inl (by rw [hab2]; simp)⟩
  · obtain ⟨a2, b2, hab2⟩ := subWs_seg z ("https://".data ++ [d]) (by simp)
      (fun x hx => urlChar_not_ws x (httpPat2_chars d hd x hx)) (httpOcc_seg _ a _ b d hor)
    exact h ⟨a2, d, b2, hd, Or.inr (by rw [hab2]; simp)⟩

theorem wwwFree_subWs (z : List Char) (h : WwwFree z) : WwwFree (subWs z) := by
  rintro ⟨a, d, b, hd, hor⟩
  obtain ⟨a2, b2, hab2⟩ := subWs_seg z ("www.".data ++ [d]) (by simp)
    (fun x hx => urlChar_not_ws x (wwwPat_chars d hd x hx)) (httpOcc_seg _ a _ b d hor)
  exact h ⟨a2, d, b2, hd, by rw [hab2]; simp⟩

theorem httpFree_pyStrip (z : List Char) (h : HttpFree z) : HttpFree (pyStrip z) := by
  rintro ⟨a, d, b, hd, hor⟩
  rcases hor with hor | hor
  · obtain ⟨a2, b2, hab2⟩ := subSeg_trans _ _ z (httpOcc_seg _ a _ b d hor) (pyStrip_subseg z)
    exact h ⟨a2, d, b2, hd, Or.inl (by rw [hab2]; simp)⟩
  · obtain ⟨a2, b2, hab2⟩ := subSeg_trans _ _ z (httpOcc_seg _ a _ b d hor) (pyStrip_subseg z)
    exact h ⟨a2, d, b2, hd, Or.inr (by rw [hab2]; simp)⟩

theorem wwwFree_pyStrip (z : List Char) (h : WwwFree z) : WwwFree (pyStrip z) := by
  rintro ⟨a, d, b, hd, hor⟩
  obtain ⟨a2, b2, hab2⟩ := subSeg_trans _ _ z (httpOcc_seg _ a _ b d hor) (pyStrip_subseg z)
  exact h ⟨a2, d, b2, hd, by rw [hab2]; simp⟩

theorem noAdjWs_cons_elim (c : Char) (cs : List Char) (h : NoAdjWs (c :: cs)) :
    NoAdjWs cs := by
  cases cs with
  | nil => trivial
  | cons y t => exact h.2

theorem noAdjWs_append_right (t b : List Char) (h : NoAdjWs (t ++ b)) : NoAdjWs t := by
  induction t with
  | nil => trivial
  | cons x xs ih =>
    cases xs with
    | nil => trivial
    | cons y t2 =>
      have h2 : NoAdjWs (x :: y :: (t2 ++ b)) := h
      exact ⟨h2.1, ih h2.2⟩

theorem noAdjWs_append_left (a u : List Char) (h : NoAdjWs (a ++ u)) : NoAdjWs u := by
  induction a with
  | nil => exact h
  | cons x a2 ih => exact ih (noAdjWs_cons_elim x _ h)

theorem wsNorm_subseg (t s : List Char) (h : WsNorm s) (hseg : SubSeg t s) : WsNorm t := by
  obtain ⟨a, b, hab⟩ := hseg
  constructor
  · intro c hc hws
    exact h.1 c (by rw [hab]; simp [hc]) hws
  · have h2 : NoAdjWs (t ++ b) := noAdjWs_append_left a (t ++ b) (hab ▸ h.2)
    exact noAdjWs_append_right t b h2

theorem wsNorm_cons_elim (c : Char) (cs : List Char) (h : WsNorm (c :: cs)) : WsNorm cs :=
  ⟨fun d hd hws => h.1 d (by simp [hd]) hws, noAdjWs_cons_elim c cs h.2⟩

/-- Helper: the head of `subWs (dropWhile ws u)` is non-whitespace. -/
theorem subWs_dropWhile_head (u : List Char) (c : Char)
    (h : (subWs (u.dropWhile (fun x => isPyWs x))).head? = some c) : isPyWs c = false := by
  cases hd : u.dropWhile (fun x => isPyWs x) with
  | nil =>
    rw [hd] at h
    rw [subWs] at h
    exact absurd h (by simp)
  | cons d du =>
    have hdws : isPyWs d = false := head_dropWhile_not _ u d (by rw [hd]; rfl)
    rw [hd, subWs, if_neg (by simp [hdws])] at h
    simp only [List.head?_cons, Option.some.injEq] at h
    rw [← h]
    exact hdws

theorem subWs_noAdj (z : List Char) : NoAdjWs (subWs z) := by
  induction z using subWs.induct with
  | case1 => rw [subWs]; trivial
  | case2 c cs hws ih =>
    rw [subWs, if_pos hws]
    cases hh : subWs (cs.dropWhile (fun x => isPyWs x)) with
    | nil => trivial
    | cons h2 t2 =>
      refine ⟨?_, hh ▸ ih⟩
      rintro ⟨_, hws2⟩
      have := subWs_dropWhile_head cs h2 (by rw [hh]; rfl)
      rw [hws2] at this
      simp at this
  | case3 c cs hws ih =>
    rw [subWs, if_neg hws]
    cases hh : subWs cs with
    | nil => trivial
    | cons h2 t2 =>
      refine ⟨?_, hh ▸ ih⟩
      rintro ⟨hws1, _⟩
      exact hws (by simpa using hws1)

theorem subWs_wsnorm (z : List Char) : WsNorm (subWs z) :=
  ⟨fun c hc hws => subWs_ws_space z c hc hws, subWs_noAdj z⟩

/-- Helper: `subWs` is the identity on whitespace-normal input. -/
theorem subWs_id (z : List Char) : WsNorm z → subWs z = z := by
  induction z using subWs.induct with
  | case1 => intro h; rw [subWs]
  | case2 c cs hws ih =>
    intro h
    have hc : c = ' ' := h.1 c (by simp) hws
    cases cs with
    | nil =>
      rw [subWs, if_pos hws]
      rw [show ([] : List Char).dropWhile (fun x => isPyWs x) = [] from rfl, subWs, hc]
    | cons y t =>
      have hyws : isPyWs y = false := by
        by_cases hy : isPyWs y = true
        · exact absurd ⟨hws, hy⟩ h.2.1
        · simpa using hy
      have hdrop : (y :: t).dropWhile (fun x => isPyWs x) = y :: t := by
        rw [List.dropWhile_cons, if_neg (by simp [hyws])]
      rw [subWs, if_pos hws, hdrop]
      rw [hdrop] at ih
      rw [ih (wsNorm_cons_elim c _ h), hc]
  | case3 c cs hws ih =>
    intro h
    rw [subWs, if_neg hws, ih (wsNorm_cons_elim c cs h)]

/-- Helper: the last character of a stripped string is non-whitespace. -/
theorem pyStrip_getLast_not_ws (s : List Char) (c : Char)
    (h : (pyStrip s).getLast? = some c) : isPyWs c = false := by
  unfold pyStrip at h
  rw [List.getLast?_reverse] at h
  exact head_dropWhile_not _ _ _ h

/-- Helper: the first character of a stripped string is non-whitespace. -/
theorem pyStrip_head_not_ws (s : List Char) (c : Char)
    (h : (pyStrip s).head? = some c) : isPyWs c = false := by
  unfold pyStrip at h
  rw [List.head?_reverse] at h
  have hvne : (s.dropWhile (fun x => isPyWs x)).reverse.dropWhile (fun x => isPyWs x) ≠ [] := by
    intro hnil
    rw [hnil] at h
    exact absurd h (by simp)
  have hsplit : (s.dropWhile (fun x => isPyWs x)).reverse.takeWhile (fun x => isPyWs x) ++
      (s.dropWhile (fun x => isPyWs x)).reverse.dropWhile (fun x => isPyWs x) =
      (s.dropWhile (fun x => isPyWs x)).reverse := List.takeWhile_append_dropWhile _ _
  have h2 : ((s.dropWhile (fun x => isPyWs x)).reverse).getLast? = some c := by
    rw [← hsplit, List.getLast?_append_of_ne_nil _ hvne]
    exact h
  rw [List.getLast?_reverse] at h2
  exact head_dropWhile_not _ _ _ h2

/-- C10 witness: a message with no payload (hence empty header dict) gets
the default from and subject fields. -/
theorem claim_C10_witness :
    create_action_file ⟨[], []⟩ ⟨"x".data, ⟨none, some "hi".data⟩⟩ "T".data = Except.ok
      (⟨upsertFile [] ("EMAIL_".data ++ "x".data ++ ".md".data)
          (renderNote "Unknown".data "No Subject".data "T".data
            (determine_priority []
              (extract_full_email_body ⟨none, some "hi".data⟩))
            (extract_full_email_body ⟨none, some "hi".data⟩)),
        addId [] "x".data⟩,
       "EMAIL_".data ++ "x".data ++ ".md".data) :=
  claim_C10.1 ⟨[], []⟩ ⟨"x".data, ⟨none, some "hi".data⟩⟩ "T".data [] rfl rfl rfl

/-- Helper: on ampersand-free input the cleaner's output is ampersand-free
(unescape is the identity there, the URL scanners and the collapse only
delete characters or insert spaces, strip only deletes). -/
theorem clean_text_amp (s : List Char) (h : '&' ∉ s) : '&' ∉ clean_text s := by
  rw [(clean_text_spec s).1, unescapeL_id s h]
  intro hmem
  have h1 := pyStrip_subset _ _ hmem
  rcases subWs_mem _ _ h1 with h2 | h2
  · exact h (subHttp_mem _ _ (subWww_mem _ _ h2))
  · exact absurd h2 (by decide)

/-- Helper: when the cleaner's output is ampersand-free, a second cleaning
pass is the identity: unescape has nothing to expand, the output is free of
URL-pattern matches, its whitespace is already collapsed to single spaces
and its ends are already stripped. -/
theorem clean_text_fix (s : List Char) (h : '&' ∉ clean_text s) :
    clean_text (clean_text s) = clean_text s := by
  have heq := (clean_text_spec s).1
  have hfreeH : HttpFree (clean_text s) := by
    rw [heq]
    exact httpFree_pyStrip _ (httpFree_subWs _ (httpFree_subWww _ (httpFree_subHttp _)))
  have hfreeW : WwwFree (clean_text s) := by
    rw [heq]
    exact wwwFree_pyStrip _ (wwwFree_subWs _ (wwwFree_subWww _))
  have hnorm : WsNorm (clean_text s) := by
    rw [heq]
    exact wsNorm_subseg _ _ (subWs_wsnorm _) (pyStrip_subseg _)
  have hstrip : pyStrip (clean_text s) = clean_text s := by
    rw [heq]
    exact pyStrip_id _ (fun c hc => pyStrip_head_not_ws _ c hc)
      (fun c hc => pyStrip_getLast_not_ws _ c hc)
  rw [(clean_text_spec (clean_text s)).1]
  rw [unescapeL_id _ h, subHttp_id _ hfreeH, subWww_id _ hfreeW, subWs_id _ hnorm, hstrip]

/-- Helper: on ampersand-free input the full normalizer coincides with a
single cleaning pass — the entity map finds no ampersand to rewrite and the
second cleaning pass is the identity. -/
theorem ensure_eq_clean (s : List Char) (h : '&' ∉ s) :
    ensure_plain_text s = clean_text s := by
  unfold ensure_plain_text
  split
  · rename_i hs
    have h0 : s = [] := by
      cases s with
      | nil => rfl
      | cons x xs => exact absurd hs (by simp)
    subst h0
    rfl
  · rw [applyEntityMap_id _ (clean_text_amp s h), clean_text_fix s (clean_text_amp s h)]

/-- C1 (amended): the normalizer `_ensure_plain_text` is idempotent on
every input containing no ampersand; on inputs with `&` the nested entity
unescaping can make a second application differ (see the counterexample). -/
theorem claim_C1_amended (s : List Char) (h : '&' ∉ s) :
    ensure_plain_text (ensure_plain_text s) = ensure_plain_text s := by
  have h1 : ensure_plain_text s = clean_text s := ensure_eq_clean s h
  have h2 : '&' ∉ ensure_plain_text s := h1 ▸ clean_text_amp s h
  rw [ensure_eq_clean _ h2, h1]
  exact clean_text_fix s (clean_text_amp s h)

/-- C1 witness: the amended idempotence at the ampersand-free input
`"  hello   world  "`. -/
theorem claim_C1_witness :
    ('&' ∉ "  hello   world  ".data) ∧
    ensure_plain_text (ensure_plain_text "  hello   world  ".data)
      = ensure_plain_text "  hello   world  ".data :=
  ⟨by decide, claim_C1_amended "  hello   world  ".data (by decide)⟩

/-- C1 counterexample: on `"&amp;amp;amp;amp;"` the normalizer returns
`"&amp;"`, and applying it again returns `"&"` — the pipeline is NOT
idempotent on all strings, refuting the unconditional claim. -/
theorem claim_C1_counterexample :
    ensure_plain_text "&amp;amp;amp;amp;".data = "&amp;".data ∧
    ensure_plain_text (ensure_plain_text "&amp;amp;amp;amp;".data) = "&".data ∧
    ensure_plain_text (ensure_plain_text "&amp;amp;amp;amp;".data)
      ≠ ensure_plain_text "&amp;amp;amp;amp;".data := by
  have h1 : ensure_plain_text "&amp;amp;amp;amp;".data = "&amp;".data := by
    simp +decide [ensure_plain_text, clean_text, applyEntityMap, entity_map, replaceSub,
      unescapeL, unescapeL_cons, charref, namedRef, numRefDec, numRefHex, resolveEnt,
      entLookup, entityTable, prefFallback, isNameChar, subHttp, subHttp_cons, tryHttp,
      startsWithL, urlTail, subWww, subWww_cons, tryWww, subWs, isPyWs, pyWsCodes, pyStrip,
      subNl, subNl_cons, nlTryMatch, isSpaceTab, List.dropWhile, List.takeWhile, List.find?]
  have h2 : ensure_plain_text "&amp;".data = "&".data := by
    simp +decide [ensure_plain_text, clean_text, applyEntityMap, entity_map, replaceSub,
      unescapeL, unescapeL_cons, charref, namedRef, numRefDec, numRefHex, resolveEnt,
      entLookup, entityTable, prefFallback, isNameChar, subHttp, subHttp_cons, tryHttp,
      startsWithL, urlTail, subWww, subWww_cons, tryWww, subWs, isPyWs, pyWsCodes, pyStrip,
      subNl, subNl_cons, nlTryMatch, isSpaceTab, List.dropWhile, List.takeWhile, List.find?]
  refine ⟨h1, by rw [h1]; exact h2, by rw [h1, h2]; decide⟩

end GW

